import Mathlib

/-!
Shallow embedding of the day-view layout algorithm of `react-big-calendar`
(`getStyledEvents` in `utils/dayViewLayout.js` and its helpers), together
with proofs of the behavioural claims of the specification.

Modelling conventions:

* Dates are modelled at minute resolution as natural numbers counting
  minutes from a fixed epoch.  `dates.merge` keeps the calendar day of its
  first argument and the time-of-day of its second, which at minute
  resolution is division/remainder by 1440.  `dates.diff` at `'minutes'`
  granularity is the absolute number of minutes between the two dates.
* The caller-supplied accessors are modelled as the field projections
  `Event.start` and `Event.stop` (`end` is a Lean keyword); the
  string-or-function accessor resolution lives outside this repository's
  core source.
* JavaScript numbers are modelled by `ℚ`; every style computation the code
  performs (percentages, division by a column count) is exact rational
  arithmetic over the integer slots.
* The in-place metadata mutation (`overlappingCount`, `groupNumber`,
  `groupStart`, `groupEnd`) is modelled by optional fields on `Event` and
  explicit state passing.  The sparse `styledEvents` output array is a
  `List (Option StyledEvent)`, and `arraySet` models JavaScript array
  assignment, extending the array with holes when the index is past the end.
* The `while` loops of the source scan forward and stop as soon as the
  relationship classifier returns `false`; a missing event makes
  `isSibling`/`isChild` return `false`, so each loop is bounded by the
  length of the event array.  The loops are modelled with an explicit fuel
  argument; every caller passes the array length, and the lemmas below show
  the fuel is never exhausted before the loop's own exit condition fires.
-/

set_option maxRecDepth 4000

namespace DayViewLayout

/-- Number of minutes in a day, used by the date model for `dates.merge`. -/
def MINUTES_IN_DAY : ℕ := 1440

/-- Model of `dates.merge(date, time)`: keep the day of `date` and the
time-of-day of `time`, at minute resolution. -/
def mergeDate (date time : ℕ) : ℕ :=
  date / MINUTES_IN_DAY * MINUTES_IN_DAY + time % MINUTES_IN_DAY

/-- Model of `dates.diff(a, b, 'minutes')`: absolute difference in minutes. -/
def diffMinutes (a b : ℕ) : ℕ := ((a : ℤ) - (b : ℤ)).natAbs

/-- `startsBefore(date, min)` from the source: the merged date is strictly
before `min` at minute precision. -/
def startsBefore (date min : ℕ) : Bool := decide (mergeDate min date < min)

/-- `positionFromDate(date, min, total)` from the source: `0` when the
merged date starts before the window, otherwise the minute difference
clamped to `total`. -/
def positionFromDate (date min total : ℕ) : ℕ :=
  if startsBefore date min then 0
  else Nat.min (diffMinutes min (mergeDate min date)) total

/-- An event record.  `start`/`stop` are the two dates read through the
accessors (`stop` models the source's `end`, a Lean keyword); the four
optional fields model the layout metadata the algorithm writes in place
onto the caller's event objects. -/
structure Event where
  start : ℕ
  stop : ℕ
  overlappingCount : Option ℕ := none
  groupNumber : Option ℕ := none
  groupStart : Option Bool := none
  groupEnd : Option Bool := none
  deriving DecidableEq, Inhabited, Repr

/-- The comparator of the source's `sort`: primarily ascending start time;
for equal starts, `endB - endA` puts the later end time first. -/
def eventCmp (a b : Event) : ℤ :=
  if (a.start : ℤ) = (b.start : ℤ) then (b.stop : ℤ) - (a.stop : ℤ)
  else (a.start : ℤ) - (b.start : ℤ)

/-- `a` may come before `b` under the comparator: `eventCmp a b ≤ 0`. -/
def eventLE (a b : Event) : Prop := eventCmp a b ≤ 0

instance : DecidableRel eventLE := fun a b =>
  decidable_of_iff (eventCmp a b ≤ 0) Iff.rfl

/-- Model of `sort(events, {startAccessor, endAccessor})`: a stable sort by
the comparator (JavaScript's `Array.prototype.sort` is stable; the source
sorts in place and returns the same array). -/
def sort (events : List Event) : List Event :=
  events.insertionSort eventLE

/-- The `helperArgs` record threaded through all helpers: the (sorted)
event array, the window start `min`, the window width `totalMin` in
minutes, and the slot granularity `step`. -/
structure DayViewArgs where
  events : List Event
  min : ℕ
  totalMin : ℕ
  step : ℕ
  deriving DecidableEq, Inhabited, Repr

/-- `getSlot(event, accessor, min, totalMin)`: `undefined` (here `none`)
when the event is missing, otherwise the projected slot of the accessed
date. -/
def getSlot (event : Option Event) (accessor : Event → ℕ) (min totalMin : ℕ) : Option ℕ :=
  event.map fun e => positionFromDate (accessor e) min totalMin

/-- `isSibling(idx1, idx2, args)`: both events must exist, and their
projected start slots must differ by strictly less than 30 minutes.  On a
present event the source's `getSlot` is exactly `positionFromDate`. -/
def isSibling (idx1 idx2 : ℕ) (args : DayViewArgs) : Bool :=
  match args.events[idx1]?, args.events[idx2]? with
  | some event1, some event2 =>
    let start1 := positionFromDate event1.start args.min args.totalMin
    let start2 := positionFromDate event2.start args.min args.totalMin
    decide (((start1 : ℤ) - (start2 : ℤ)).natAbs < 30)
  | _, _ => false

/-- `isChild(parentIdx, childIdx, args)`: never a child when the two are
siblings; otherwise the parent's projected end slot must strictly exceed
the child's projected start slot.  A missing event yields a `none` slot and
the comparison is `false`, as in JavaScript (`undefined > x` is `false`). -/
def isChild (parentIdx childIdx : ℕ) (args : DayViewArgs) : Bool :=
  if isSibling parentIdx childIdx args then false
  else
    match getSlot args.events[parentIdx]? Event.stop args.min args.totalMin,
          getSlot args.events[childIdx]? Event.start args.min args.totalMin with
    | some parentEnd, some childStart => decide (parentEnd > childStart)
    | _, _ => false

/-- The scanning loop of `getSiblings`: collect `nextIdx, nextIdx+1, …`
while each is a sibling of `idx`.  `fuel` is a termination device; callers
pass the event-array length, which is never exhausted before the sibling
test fails (a sibling index is always in bounds). -/
def siblingsFrom (fuel idx nextIdx : ℕ) (args : DayViewArgs) : List ℕ :=
  match fuel with
  | 0 => []
  | fuel + 1 =>
    if isSibling idx nextIdx args then
      nextIdx :: siblingsFrom fuel idx (nextIdx + 1) args
    else []

/-- `getSiblings(idx, args)` from the source. -/
def getSiblings (idx : ℕ) (args : DayViewArgs) : List ℕ :=
  siblingsFrom args.events.length idx (idx + 1) args

/-- The outer scanning loop of `getChildGroups`: while the current index is
a child of `idx`, collect it together with its own sibling run as one child
group, then continue past the group. -/
def childGroupsFrom (fuel idx nextIdx : ℕ) (args : DayViewArgs) : List (List ℕ) :=
  match fuel with
  | 0 => []
  | fuel + 1 =>
    if isChild idx nextIdx args then
      let childGroup := nextIdx :: siblingsFrom args.events.length nextIdx (nextIdx + 1) args
      childGroup :: childGroupsFrom fuel idx (nextIdx + childGroup.length) args
    else []

/-- `getChildGroups(idx, nextIdx, args)` from the source: the list of child
groups together with the largest group size (`nbrOfChildColumns`). -/
def getChildGroups (idx nextIdx : ℕ) (args : DayViewArgs) : List (List ℕ) × ℕ :=
  let groups := childGroupsFrom args.events.length idx nextIdx args
  (groups, (groups.map List.length).foldl Nat.max 0)

/-- The `{top, height}` record returned by `getYStyles`. -/
structure YStyle where
  top : ℚ
  height : ℚ
  deriving DecidableEq, Inhabited, Repr

/-- `getYStyles(idx, args)` from the source: the end slot is floored at
`start + step`, and top/height are percentages of `totalMin`.  For a
missing event the source would produce `NaN` styles; that branch returns
zeros here and is unreachable in the driver, which only styles indices of
existing events. -/
def getYStyles (idx : ℕ) (args : DayViewArgs) : YStyle :=
  match args.events[idx]? with
  | some event =>
    let start := positionFromDate event.start args.min args.totalMin
    let stop := Nat.max (positionFromDate event.stop args.min args.totalMin) (start + args.step)
    let top : ℚ := (start : ℚ) / (args.totalMin : ℚ) * 100
    let bottom : ℚ := (stop : ℚ) / (args.totalMin : ℚ) * 100
    ⟨top, bottom - top⟩
  | none => ⟨0, 0⟩

/-- `isFirstSibling` from the source. -/
def isFirstSibling (siblingIdx : ℕ) : Bool := decide (siblingIdx = 0)

/-- `isOnlyNestedElement` from the source. -/
def isOnlyNestedElement (group : List ℕ) : Bool := decide (group.length = 1)

/-- The style record `{top, height, width, xOffset}` attached to every
output entry, all percentages. -/
structure Style where
  top : ℚ
  height : ℚ
  width : ℚ
  xOffset : ℚ
  deriving DecidableEq, Inhabited, Repr

/-- One output entry `{event, style}` of `getStyledEvents`. -/
structure StyledEvent where
  event : Event
  style : Style
  deriving DecidableEq, Inhabited, Repr

/-- The mutable state of one `getStyledEvents` run: the (sorted, in-place
annotated) event array and the sparse `styledEvents` output array. -/
structure LayoutState where
  events : List Event
  styledEvents : List (Option StyledEvent)
  deriving DecidableEq, Inhabited, Repr

/-- JavaScript array assignment `xs[i] = v` on a possibly sparse array:
assigns in place when `i` is in bounds, otherwise extends the array with
holes (`none`) up to index `i`. -/
def arraySet {α : Type} (xs : List (Option α)) (i : ℕ) (v : α) : List (Option α) :=
  if i < xs.length then xs.set i (some v)
  else xs ++ List.replicate (i - xs.length) none ++ [some v]

/-- One iteration of the source's top-level `forEach` (lines 189–223):
style the event at `eventIdx`, the `siblingIdx`-th member of the run
`[idx, ...siblings]`, writing sibling metadata onto the event when the run
has more than one member. -/
def styleTopLevelStep (eventIdx siblingIdx siblingsLen : ℕ) (args0 : DayViewArgs)
    (st : LayoutState) : LayoutState :=
  if siblingsLen ≠ 0 then
    let siblingsNumber := siblingsLen + 1
    let ev := st.events.getD eventIdx default
    let ev' := { ev with
      overlappingCount := some siblingsNumber,
      groupStart := some (decide (siblingIdx = 0)),
      groupEnd := some (decide (siblingIdx = siblingsLen)) }
    let events' := st.events.set eventIdx ev'
    let width : ℚ := 100 / (siblingsNumber : ℚ)
    let xOffset : ℚ := if isFirstSibling siblingIdx then 0 else width * (siblingIdx : ℚ)
    let y := getYStyles eventIdx { args0 with events := events' }
    ⟨events', arraySet st.styledEvents eventIdx
      ⟨events'.getD eventIdx default, ⟨y.top, y.height, width, xOffset⟩⟩⟩
  else
    let y := getYStyles eventIdx { args0 with events := st.events }
    ⟨st.events, arraySet st.styledEvents eventIdx
      ⟨st.events.getD eventIdx default, ⟨y.top, y.height, 100, 0⟩⟩⟩

/-- The source's `[idx, ...siblings].forEach(...)` top-level loop.
`members` is (a suffix of) `[idx, ...siblings]` and `siblingIdx` the
running index argument of the callback. -/
def styleTopLevelGo (members : List ℕ) (siblingIdx siblingsLen : ℕ) (args0 : DayViewArgs)
    (st : LayoutState) : LayoutState :=
  match members with
  | [] => st
  | eventIdx :: rest =>
    styleTopLevelGo rest (siblingIdx + 1) siblingsLen args0
      (styleTopLevelStep eventIdx siblingIdx siblingsLen args0 st)

/-- The reparenting loop (source lines 226–234): starting from the cluster
anchor as provisional parent, adopt each successive sibling of the run as
the parent while it is a child-relation parent of the group's first
member.  Past the end of the run `isChild` is `false` on the missing index,
ending the walk, which here is structural recursion on the run. -/
def resolveParent (parentIdx : ℕ) (siblings : List ℕ) (firstChild : ℕ)
    (args : DayViewArgs) : ℕ :=
  match siblings with
  | [] => parentIdx
  | s :: rest =>
    if isChild s firstChild args then resolveParent s rest firstChild args
    else parentIdx

/-- The destructuring read `let { style: parentStyle } = styledEvents[parentIdx]`
of the source: the style stored at `parentIdx`.  A missing entry would be a
TypeError in the source; here it reads as the zero style, and the safety
theorems show the entry is always present when the driver reads it. -/
def parentStyleAt (st : LayoutState) (parentIdx : ℕ) : Style :=
  match st.styledEvents.getD parentIdx none with
  | some se => se.style
  | none => default

/-- One iteration of the source's child-group `forEach` (lines 237–276):
style member number `i` of `group` (the event at index `eventIdx`), reading
the resolved parent's already-computed style. -/
def styleChildStep (group : List ℕ) (eventIdx i groupIndex parentIdx : ℕ)
    (args0 : DayViewArgs) (st : LayoutState) : LayoutState :=
  let parentStyle := parentStyleAt st parentIdx
  let parentWidth := parentStyle.width
  let parentXOffset := parentStyle.xOffset
  let event := st.events.getD eventIdx default
  let offset : ℚ := 3
  let nestedGroupOffset : ℚ := 3
  let groupNumber := groupIndex + 1
  let overlappingCount := group.length
  if isOnlyNestedElement group then
    let xOffset : ℚ := offset * (groupNumber : ℚ)
    let width : ℚ := 100 - xOffset
    let y := getYStyles eventIdx { args0 with events := st.events }
    ⟨st.events, arraySet st.styledEvents eventIdx
      ⟨event, ⟨y.top, y.height, width, xOffset⟩⟩⟩
  else
    let groupOffset : ℚ := nestedGroupOffset * (groupNumber : ℚ)
    let width : ℚ :=
      (parentWidth - offset * (groupIndex : ℚ)) / (overlappingCount : ℚ) -
        offset / (overlappingCount : ℚ)
    let childOffsetInGroup : ℚ := width * (i : ℚ)
    let xOffset : ℚ := parentXOffset + childOffsetInGroup + groupOffset
    let event' := { event with
      overlappingCount := some overlappingCount,
      groupNumber := some groupNumber,
      groupStart := some (decide (i = 0)),
      groupEnd := some (decide (i = group.length - 1)) }
    let events' := st.events.set eventIdx event'
    let y := getYStyles eventIdx { args0 with events := events' }
    ⟨events', arraySet st.styledEvents eventIdx
      ⟨event', ⟨y.top, y.height, width, xOffset⟩⟩⟩

/-- The source's `group.forEach(...)` loop over one child group.
`memrest` is the suffix of `group` still to style and `i` the running
index argument of the callback. -/
def styleChildGroupGo (memrest : List ℕ) (i : ℕ) (group : List ℕ)
    (groupIndex parentIdx : ℕ) (args0 : DayViewArgs) (st : LayoutState) : LayoutState :=
  match memrest with
  | [] => st
  | eventIdx :: rest =>
    styleChildGroupGo rest (i + 1) group groupIndex parentIdx args0
      (styleChildStep group eventIdx i groupIndex parentIdx args0 st)

/-- The source's `childGroups.forEach(...)`: resolve each group's effective
parent, then style the group's members.  `groupIndex` is the running index
argument of the callback. -/
def styleGroupsGo (groups : List (List ℕ)) (groupIndex idx : ℕ) (siblings : List ℕ)
    (args0 : DayViewArgs) (st : LayoutState) : LayoutState :=
  match groups with
  | [] => st
  | group :: rest =>
    let parentIdx := resolveParent idx siblings (group.headD 0)
      { args0 with events := st.events }
    let st' := styleChildGroupGo group 0 group groupIndex parentIdx args0 st
    styleGroupsGo rest (groupIndex + 1) idx siblings args0 st'

/-- The driver loop of `getStyledEvents` (source lines 183–283).  One
iteration styles one connected cluster — the anchor `idx`, its sibling run
and all its child groups — then advances the cursor past all of them.
`fuel` is a termination device: the cursor strictly increases each
iteration, so the event-array length (what the wrapper passes) is always
enough. -/
def driveFrom (fuel : ℕ) (args0 : DayViewArgs) (st : LayoutState) (idx : ℕ) : LayoutState :=
  match fuel with
  | 0 => st
  | fuel + 1 =>
    if idx < st.events.length then
      let args := { args0 with events := st.events }
      let siblings := getSiblings idx args
      let childGroups := (getChildGroups idx (idx + siblings.length + 1) args).1
      let st1 := styleTopLevelGo (idx :: siblings) 0 siblings.length args0 st
      let st2 := styleGroupsGo childGroups 0 idx siblings args0 st1
      driveFrom fuel args0 st2
        (idx + 1 + siblings.length + (childGroups.map List.length).sum)
    else st

/-- The final layout state of a `getStyledEvents(args)` run: sort the
events, then drive the cluster loop from index `0` over the sorted array. -/
def finalState (args : DayViewArgs) : LayoutState :=
  let events := sort args.events
  driveFrom events.length { args with events := events } ⟨events, []⟩ 0

/-- `getStyledEvents(args)` from the source: the styled-events array
produced by the driver loop over the sorted event array. -/
def getStyledEvents (args : DayViewArgs) : List (Option StyledEvent) :=
  (finalState args).styledEvents

/-! ### Basic lemmas about the order used by the sorter -/

/-- The comparator order is total. -/
theorem eventLE_total (a b : Event) : eventLE a b ∨ eventLE b a := by
  unfold eventLE eventCmp
  split_ifs <;> omega

/-- The comparator order is transitive. -/
theorem eventLE_trans {a b c : Event} (hab : eventLE a b) (hbc : eventLE b c) :
    eventLE a c := by
  unfold eventLE eventCmp at *
  split_ifs at hab hbc ⊢ <;> omega

instance : IsTotal Event eventLE := ⟨eventLE_total⟩

instance : IsTrans Event eventLE := ⟨fun _ _ _ => eventLE_trans⟩

/-! ### The sparse-array assignment -/

theorem length_arraySet {α : Type} (xs : List (Option α)) (i : ℕ) (v : α) :
    (arraySet xs i v).length = Nat.max xs.length (i + 1) := by
  unfold arraySet
  split <;> simp [Nat.max_def] <;> split <;> omega

theorem getD_arraySet_self {α : Type} (xs : List (Option α)) (i : ℕ) (v : α) :
    (arraySet xs i v).getD i none = some v := by
  unfold arraySet
  split
  · next h => rw [List.getD_eq_getElem?_getD, List.getElem?_set_self h]; rfl
  · next h =>
    have h0 : i - (xs ++ List.replicate (i - xs.length) none).length = 0 := by
      simp; omega
    rw [List.getD_eq_getElem?_getD, List.getElem?_append_right (by simp; omega), h0]
    rfl

theorem getD_arraySet_ne {α : Type} (xs : List (Option α)) {i j : ℕ} (v : α)
    (h : j ≠ i) : (arraySet xs i v).getD j none = xs.getD j none := by
  unfold arraySet
  split
  · next hi =>
    rw [List.getD_eq_getElem?_getD, List.getD_eq_getElem?_getD,
      List.getElem?_set_ne (Ne.symm h)]
  · next hi =>
    rw [List.getD_eq_getElem?_getD, List.getD_eq_getElem?_getD]
    by_cases hj : j < xs.length
    · rw [List.getElem?_append_left (by simp; omega), List.getElem?_append_left hj]
    · rw [List.getElem?_eq_none (l := xs) (by omega)]
      by_cases hji : j < i
      · rw [List.getElem?_append_left (by simp; omega),
          List.getElem?_append_right (by omega)]
        rw [List.getElem?_replicate, if_pos (by omega)]
        rfl
      · rw [List.getElem?_eq_none (by simp; omega)]

/-! ### Bounds: a successful sibling or child test means the index exists -/

theorem isSibling_lt_left {idx1 idx2 : ℕ} {args : DayViewArgs}
    (h : isSibling idx1 idx2 args = true) : idx1 < args.events.length := by
  by_contra hn
  rw [isSibling, List.getElem?_eq_none (by omega)] at h
  rcases args.events[idx2]? with _ | e2 <;> simp at h

theorem isSibling_lt_right {idx1 idx2 : ℕ} {args : DayViewArgs}
    (h : isSibling idx1 idx2 args = true) : idx2 < args.events.length := by
  by_contra hn
  rw [isSibling, List.getElem?_eq_none (l := args.events) (n := idx2) (by omega)] at h
  rcases args.events[idx1]? with _ | e1 <;> simp at h

theorem isChild_lt_right {p c : ℕ} {args : DayViewArgs}
    (h : isChild p c args = true) : c < args.events.length := by
  by_contra hn
  rw [isChild] at h
  split at h
  · exact absurd h (by simp)
  · rw [List.getElem?_eq_none (l := args.events) (n := c) (by omega)] at h
    rcases getSlot args.events[p]? Event.stop args.min args.totalMin with _ | pe <;>
      simp [getSlot] at h

/-! ### Shape of the sibling and child-group scans -/

theorem siblingsFrom_shape (fuel idx nextIdx : ℕ) (args : DayViewArgs) :
    ∃ m, siblingsFrom fuel idx nextIdx args = List.range' nextIdx m := by
  induction fuel generalizing nextIdx with
  | zero => exact ⟨0, rfl⟩
  | succ fuel ih =>
    rw [siblingsFrom]
    split
    · obtain ⟨m, hm⟩ := ih (nextIdx + 1)
      exact ⟨m + 1, by rw [hm, List.range'_succ]⟩
    · exact ⟨0, rfl⟩

theorem siblingsFrom_mem_isSibling {fuel idx nextIdx : ℕ} {args : DayViewArgs} {x : ℕ}
    (h : x ∈ siblingsFrom fuel idx nextIdx args) : isSibling idx x args = true := by
  induction fuel generalizing nextIdx with
  | zero => simp [siblingsFrom] at h
  | succ fuel ih =>
    rw [siblingsFrom] at h
    split at h
    · next hs =>
      rcases List.mem_cons.mp h with rfl | h'
      · exact hs
      · exact ih h'
    · simp at h

theorem siblingsFrom_mem_lt {fuel idx nextIdx : ℕ} {args : DayViewArgs} {x : ℕ}
    (h : x ∈ siblingsFrom fuel idx nextIdx args) : x < args.events.length :=
  isSibling_lt_right (siblingsFrom_mem_isSibling h)

theorem childGroupsFrom_mem {fuel idx nextIdx : ℕ} {args : DayViewArgs} {g : List ℕ}
    (h : g ∈ childGroupsFrom fuel idx nextIdx args) :
    ∃ c, g = c :: siblingsFrom args.events.length c (c + 1) args ∧
      isChild idx c args = true := by
  induction fuel generalizing nextIdx with
  | zero => simp [childGroupsFrom] at h
  | succ fuel ih =>
    rw [childGroupsFrom] at h
    split at h
    · next hc =>
      rcases List.mem_cons.mp h with rfl | h'
      · exact ⟨nextIdx, rfl, hc⟩
      · exact ih h'
    · simp at h

theorem childGroupsFrom_mem_ne_nil {fuel idx nextIdx : ℕ} {args : DayViewArgs}
    {g : List ℕ} (h : g ∈ childGroupsFrom fuel idx nextIdx args) : g ≠ [] := by
  obtain ⟨c, rfl, -⟩ := childGroupsFrom_mem h
  simp

theorem childGroupsFrom_mem_mem_lt {fuel idx nextIdx : ℕ} {args : DayViewArgs}
    {g : List ℕ} {x : ℕ} (hg : g ∈ childGroupsFrom fuel idx nextIdx args)
    (hx : x ∈ g) : x < args.events.length := by
  obtain ⟨c, rfl, hc⟩ := childGroupsFrom_mem hg
  rcases List.mem_cons.mp hx with rfl | h'
  · exact isChild_lt_right hc
  · exact siblingsFrom_mem_lt h'

/-! ### The date projection: the pipeline reads only the start and end
dates of events, so every helper is invariant under changes that keep the
two dates (in particular under the metadata writes) -/

/-- The two dates of an event — exactly the data the accessors expose. -/
def projEv (e : Event) : ℕ × ℕ := (e.start, e.stop)

theorem getElem?_projEv {l1 l2 : List Event}
    (he : l1.map projEv = l2.map projEv) (k : ℕ) :
    l1[k]?.map projEv = l2[k]?.map projEv := by
  rw [← List.getElem?_map, ← List.getElem?_map, he]

theorem length_eq_of_projEv {l1 l2 : List Event}
    (he : l1.map projEv = l2.map projEv) : l1.length = l2.length := by
  simpa using congrArg List.length he

theorem getSlot_congr {l1 l2 : List Event} {m1 t1 m2 t2 : ℕ} (acc : Event → ℕ)
    (hacc : ∀ e1 e2 : Event, projEv e1 = projEv e2 → acc e1 = acc e2)
    (hm : m1 = m2) (ht : t1 = t2)
    (he : l1.map projEv = l2.map projEv) (k : ℕ) :
    getSlot l1[k]? acc m1 t1 = getSlot l2[k]? acc m2 t2 := by
  subst hm ht
  have h := getElem?_projEv he k
  rcases h1 : l1[k]? with _ | e1 <;> rcases h2 : l2[k]? with _ | e2 <;>
    rw [h1, h2] at h <;> simp_all [getSlot]
  rw [hacc e1 e2 h]

/-- `isSibling` seen through `getSlot`, for congruence reasoning. -/
theorem isSibling_eq_slots (idx1 idx2 : ℕ) (args : DayViewArgs) :
    isSibling idx1 idx2 args =
      match getSlot args.events[idx1]? Event.start args.min args.totalMin,
            getSlot args.events[idx2]? Event.start args.min args.totalMin with
      | some s1, some s2 => decide (((s1 : ℤ) - (s2 : ℤ)).natAbs < 30)
      | _, _ => false := by
  unfold isSibling getSlot
  rcases args.events[idx1]? with _ | e1 <;> rcases args.events[idx2]? with _ | e2 <;> rfl

theorem isSibling_congr {args1 args2 : DayViewArgs}
    (hm : args1.min = args2.min) (ht : args1.totalMin = args2.totalMin)
    (he : args1.events.map projEv = args2.events.map projEv) (i j : ℕ) :
    isSibling i j args1 = isSibling i j args2 := by
  rw [isSibling_eq_slots, isSibling_eq_slots,
    getSlot_congr Event.start (fun e1 e2 h => congrArg Prod.fst h) hm ht he i,
    getSlot_congr Event.start (fun e1 e2 h => congrArg Prod.fst h) hm ht he j]

theorem isChild_congr {args1 args2 : DayViewArgs}
    (hm : args1.min = args2.min) (ht : args1.totalMin = args2.totalMin)
    (he : args1.events.map projEv = args2.events.map projEv) (p c : ℕ) :
    isChild p c args1 = isChild p c args2 := by
  unfold isChild
  rw [isSibling_congr hm ht he p c,
    getSlot_congr Event.stop (fun e1 e2 h => congrArg Prod.snd h) hm ht he p,
    getSlot_congr Event.start (fun e1 e2 h => congrArg Prod.fst h) hm ht he c]

theorem getYStyles_congr {args1 args2 : DayViewArgs}
    (hm : args1.min = args2.min) (ht : args1.totalMin = args2.totalMin)
    (hs : args1.step = args2.step)
    (he : args1.events.map projEv = args2.events.map projEv) (k : ℕ) :
    getYStyles k args1 = getYStyles k args2 := by
  have h := getElem?_projEv he k
  unfold getYStyles
  rcases h1 : args1.events[k]? with _ | e1 <;> rcases h2 : args2.events[k]? with _ | e2 <;>
    rw [h1, h2] at h <;> simp only [Option.map_none', Option.map_some'] at h
  all_goals try exact Option.noConfusion h
  obtain ⟨hstart, hstop⟩ : e1.start = e2.start ∧ e1.stop = e2.stop := by
    simpa [projEv, Prod.ext_iff] using h
  simp only [hstart, hstop, hm, ht, hs]

theorem siblingsFrom_congr {args1 args2 : DayViewArgs}
    (hm : args1.min = args2.min) (ht : args1.totalMin = args2.totalMin)
    (he : args1.events.map projEv = args2.events.map projEv)
    (fuel idx nextIdx : ℕ) :
    siblingsFrom fuel idx nextIdx args1 = siblingsFrom fuel idx nextIdx args2 := by
  induction fuel generalizing nextIdx with
  | zero => rfl
  | succ fuel ih =>
    rw [siblingsFrom, siblingsFrom, isSibling_congr hm ht he idx nextIdx]
    split
    · rw [ih (nextIdx + 1)]
    · rfl

theorem getSiblings_congr {args1 args2 : DayViewArgs}
    (hm : args1.min = args2.min) (ht : args1.totalMin = args2.totalMin)
    (he : args1.events.map projEv = args2.events.map projEv) (idx : ℕ) :
    getSiblings idx args1 = getSiblings idx args2 := by
  unfold getSiblings
  rw [length_eq_of_projEv he, siblingsFrom_congr hm ht he]

theorem childGroupsFrom_congr {args1 args2 : DayViewArgs}
    (hm : args1.min = args2.min) (ht : args1.totalMin = args2.totalMin)
    (he : args1.events.map projEv = args2.events.map projEv)
    (fuel idx nextIdx : ℕ) :
    childGroupsFrom fuel idx nextIdx args1 = childGroupsFrom fuel idx nextIdx args2 := by
  induction fuel generalizing nextIdx with
  | zero => rfl
  | succ fuel ih =>
    rw [childGroupsFrom, childGroupsFrom, isChild_congr hm ht he idx nextIdx]
    split
    · simp only [length_eq_of_projEv he, siblingsFrom_congr hm ht he, ih]
    · rfl

theorem resolveParent_congr {args1 args2 : DayViewArgs}
    (hm : args1.min = args2.min) (ht : args1.totalMin = args2.totalMin)
    (he : args1.events.map projEv = args2.events.map projEv)
    (parentIdx : ℕ) (siblings : List ℕ) (firstChild : ℕ) :
    resolveParent parentIdx siblings firstChild args1 =
      resolveParent parentIdx siblings firstChild args2 := by
  induction siblings generalizing parentIdx with
  | nil => rfl
  | cons s rest ih =>
    rw [resolveParent, resolveParent, isChild_congr hm ht he s firstChild]
    split
    · exact ih s
    · rfl

theorem childGroupsFrom_flatten (fuel idx nextIdx : ℕ) (args : DayViewArgs) :
    (childGroupsFrom fuel idx nextIdx args).flatten =
      List.range' nextIdx
        (((childGroupsFrom fuel idx nextIdx args).map List.length).sum) := by
  induction fuel generalizing nextIdx with
  | zero => simp [childGroupsFrom]
  | succ fuel ih =>
    rw [childGroupsFrom]
    split
    · next hc =>
      obtain ⟨m, hm⟩ :=
        siblingsFrom_shape args.events.length nextIdx (nextIdx + 1) args
      have hgrp : nextIdx :: siblingsFrom args.events.length nextIdx (nextIdx + 1) args
          = List.range' nextIdx (m + 1) := by
        rw [hm, List.range'_succ]
      simp only [List.flatten_cons, List.map_cons, List.sum_cons, ih, hgrp,
        List.length_range']
      rw [List.range'_append_1]
      congr 1
      omega
    · simp

/-! ### The top-level styling phase -/

/-- The styled-events entry at position `p` (JavaScript `styledEvents[p]`,
`none` for a hole or an out-of-range read). -/
def entryAt (st : LayoutState) (p : ℕ) : Option StyledEvent :=
  st.styledEvents.getD p none

/-- Width given to a member of a top-level run with `sibLen` siblings. -/
def topWidth (sibLen : ℕ) : ℚ :=
  if sibLen = 0 then 100 else 100 / ((sibLen + 1 : ℕ) : ℚ)

/-- Horizontal offset of the `sIdx`-th member of a top-level run. -/
def topXOffset (sibLen sIdx : ℕ) : ℚ :=
  if sibLen = 0 then 0
  else if sIdx = 0 then 0 else topWidth sibLen * (sIdx : ℚ)

theorem styleTopLevelStep_events_length (eventIdx sIdx sibLen : ℕ)
    (args0 : DayViewArgs) (st : LayoutState) :
    (styleTopLevelStep eventIdx sIdx sibLen args0 st).events.length =
      st.events.length := by
  unfold styleTopLevelStep
  split <;> simp

theorem styleTopLevelStep_projEv (eventIdx sIdx sibLen : ℕ)
    (args0 : DayViewArgs) (st : LayoutState) :
    (styleTopLevelStep eventIdx sIdx sibLen args0 st).events.map projEv =
      st.events.map projEv := by
  unfold styleTopLevelStep
  split
  · simp only [List.map_set]
    apply List.ext_getElem?
    intro n
    by_cases hn : n = eventIdx
    · subst hn
      by_cases hlt : n < st.events.length
      · rw [List.getElem?_set_self (by simpa using hlt), List.getElem?_map,
          List.getElem?_eq_getElem hlt]
        simp [projEv, List.getD_eq_getElem?_getD, List.getElem?_eq_getElem hlt]
      · rw [List.set_eq_of_length_le (by simpa using Nat.le_of_not_lt hlt)]
    · rw [List.getElem?_set_ne (Ne.symm hn)]
  · rfl

theorem styleTopLevelStep_events_frame (eventIdx sIdx sibLen : ℕ)
    (args0 : DayViewArgs) (st : LayoutState) {p : ℕ} (hp : p ≠ eventIdx) :
    (styleTopLevelStep eventIdx sIdx sibLen args0 st).events[p]? =
      st.events[p]? := by
  unfold styleTopLevelStep
  split
  · simp only
    rw [List.getElem?_set_ne (Ne.symm hp)]
  · rfl

theorem styleTopLevelStep_entry_frame (eventIdx sIdx sibLen : ℕ)
    (args0 : DayViewArgs) (st : LayoutState) {p : ℕ} (hp : p ≠ eventIdx) :
    entryAt (styleTopLevelStep eventIdx sIdx sibLen args0 st) p = entryAt st p := by
  unfold styleTopLevelStep entryAt
  split <;> simp only <;> rw [getD_arraySet_ne _ _ hp]

theorem styleTopLevelStep_styled_length (eventIdx sIdx sibLen : ℕ)
    (args0 : DayViewArgs) (st : LayoutState) :
    (styleTopLevelStep eventIdx sIdx sibLen args0 st).styledEvents.length =
      Nat.max st.styledEvents.length (eventIdx + 1) := by
  unfold styleTopLevelStep
  split <;> simp only <;> rw [length_arraySet]

/-- What one top-level iteration writes at its own index. -/
theorem styleTopLevelStep_entry_self (eventIdx sIdx sibLen : ℕ)
    (args0 : DayViewArgs) (st : LayoutState) (hlt : eventIdx < st.events.length) :
    ∃ ev : Event,
      (styleTopLevelStep eventIdx sIdx sibLen args0 st).events[eventIdx]? = some ev ∧
      entryAt (styleTopLevelStep eventIdx sIdx sibLen args0 st) eventIdx =
        some ⟨ev,
          ⟨(getYStyles eventIdx
              { args0 with events := (styleTopLevelStep eventIdx sIdx sibLen args0 st).events }).top,
           (getYStyles eventIdx
              { args0 with events := (styleTopLevelStep eventIdx sIdx sibLen args0 st).events }).height,
           topWidth sibLen, topXOffset sibLen sIdx⟩⟩ ∧
      (sibLen ≠ 0 →
        ev.overlappingCount = some (sibLen + 1) ∧
        ev.groupStart = some (decide (sIdx = 0)) ∧
        ev.groupEnd = some (decide (sIdx = sibLen)) ∧
        projEv ev = projEv (st.events.getD eventIdx default)) ∧
      (sibLen = 0 → ev = st.events.getD eventIdx default) := by
  unfold styleTopLevelStep
  by_cases hs : sibLen = 0
  · subst hs
    rw [if_neg (by simp)]
    refine ⟨st.events.getD eventIdx default, ?_, ?_, fun h => absurd rfl h, fun _ => rfl⟩
    · rw [List.getD_eq_getElem?_getD, List.getElem?_eq_getElem hlt]
      rfl
    · unfold entryAt
      rw [getD_arraySet_self]
      unfold topWidth topXOffset
      rw [if_pos rfl, if_pos rfl]
  · rw [if_pos hs]
    refine ⟨{ st.events.getD eventIdx default with
        overlappingCount := some (sibLen + 1),
        groupStart := some (decide (sIdx = 0)),
        groupEnd := some (decide (sIdx = sibLen)) },
      ?_, ?_, fun _ => ⟨rfl, rfl, rfl, rfl⟩, fun h => absurd h hs⟩
    · rw [List.getElem?_set_self hlt]
    · unfold entryAt
      rw [getD_arraySet_self]
      have hget : (st.events.set eventIdx
          { st.events.getD eventIdx default with
            overlappingCount := some (sibLen + 1),
            groupStart := some (decide (sIdx = 0)),
            groupEnd := some (decide (sIdx = sibLen)) }).getD eventIdx default =
          { st.events.getD eventIdx default with
            overlappingCount := some (sibLen + 1),
            groupStart := some (decide (sIdx = 0)),
            groupEnd := some (decide (sIdx = sibLen)) } := by
        rw [List.getD_eq_getElem?_getD, List.getElem?_set_self hlt]
        rfl
      rw [hget]
      unfold topWidth topXOffset
      rw [if_neg hs, if_neg hs]
      simp [isFirstSibling, topWidth, hs]


theorem styleTopLevelGo_events_length (members : List ℕ) (sIdx sibLen : ℕ)
    (args0 : DayViewArgs) (st : LayoutState) :
    (styleTopLevelGo members sIdx sibLen args0 st).events.length =
      st.events.length := by
  induction members generalizing sIdx st with
  | nil => rfl
  | cons m rest ih =>
    rw [styleTopLevelGo, ih, styleTopLevelStep_events_length]

theorem styleTopLevelGo_projEv (members : List ℕ) (sIdx sibLen : ℕ)
    (args0 : DayViewArgs) (st : LayoutState) :
    (styleTopLevelGo members sIdx sibLen args0 st).events.map projEv =
      st.events.map projEv := by
  induction members generalizing sIdx st with
  | nil => rfl
  | cons m rest ih =>
    rw [styleTopLevelGo, ih, styleTopLevelStep_projEv]

theorem styleTopLevelGo_events_frame (members : List ℕ) (sIdx sibLen : ℕ)
    (args0 : DayViewArgs) (st : LayoutState) {p : ℕ} (hp : p ∉ members) :
    (styleTopLevelGo members sIdx sibLen args0 st).events[p]? = st.events[p]? := by
  induction members generalizing sIdx st with
  | nil => rfl
  | cons m rest ih =>
    rw [styleTopLevelGo, ih _ _ (fun h => hp (List.mem_cons_of_mem m h)),
      styleTopLevelStep_events_frame _ _ _ _ _
        (fun h => hp (by rw [h]; exact List.mem_cons_self m rest))]

theorem styleTopLevelGo_entry_frame (members : List ℕ) (sIdx sibLen : ℕ)
    (args0 : DayViewArgs) (st : LayoutState) {p : ℕ} (hp : p ∉ members) :
    entryAt (styleTopLevelGo members sIdx sibLen args0 st) p = entryAt st p := by
  induction members generalizing sIdx st with
  | nil => rfl
  | cons m rest ih =>
    rw [styleTopLevelGo, ih _ _ (fun h => hp (List.mem_cons_of_mem m h)),
      styleTopLevelStep_entry_frame _ _ _ _ _
        (fun h => hp (by rw [h]; exact List.mem_cons_self m rest))]

theorem styleTopLevelGo_styled_length (members : List ℕ) (sIdx sibLen : ℕ)
    (args0 : DayViewArgs) (st : LayoutState) :
    (styleTopLevelGo members sIdx sibLen args0 st).styledEvents.length =
      members.foldl (fun acc m => Nat.max acc (m + 1)) st.styledEvents.length := by
  induction members generalizing sIdx st with
  | nil => rfl
  | cons m rest ih =>
    rw [styleTopLevelGo, ih, List.foldl_cons, styleTopLevelStep_styled_length]

/-- What the top-level phase writes at the `k`-th member of the run. -/
theorem styleTopLevelGo_member (members : List ℕ) (sibLen : ℕ) (args0 : DayViewArgs) :
    ∀ (sIdx : ℕ) (st : LayoutState), members.Nodup →
      (∀ m ∈ members, m < st.events.length) →
      ∀ k (hk : k < members.length),
      ∃ ev : Event,
        (styleTopLevelGo members sIdx sibLen args0 st).events[members.get ⟨k, hk⟩]? =
          some ev ∧
        entryAt (styleTopLevelGo members sIdx sibLen args0 st) (members.get ⟨k, hk⟩) =
          some ⟨ev,
            ⟨(getYStyles (members.get ⟨k, hk⟩)
                { args0 with
                  events := (styleTopLevelGo members sIdx sibLen args0 st).events }).top,
             (getYStyles (members.get ⟨k, hk⟩)
                { args0 with
                  events := (styleTopLevelGo members sIdx sibLen args0 st).events }).height,
             topWidth sibLen, topXOffset sibLen (sIdx + k)⟩⟩ ∧
        (sibLen ≠ 0 →
          ev.overlappingCount = some (sibLen + 1) ∧
          ev.groupStart = some (decide (sIdx + k = 0)) ∧
          ev.groupEnd = some (decide (sIdx + k = sibLen)) ∧
          projEv ev = projEv (st.events.getD (members.get ⟨k, hk⟩) default)) ∧
        (sibLen = 0 → ev = st.events.getD (members.get ⟨k, hk⟩) default) := by
  induction members with
  | nil =>
    intro sIdx st _ _ k hk
    exact absurd hk (by simp)
  | cons m rest ih =>
    intro sIdx st hnd hlt k hk
    rw [List.nodup_cons] at hnd
    cases k with
    | zero =>
      rw [show (m :: rest).get ⟨0, hk⟩ = m from rfl, Nat.add_zero]
      obtain ⟨ev, h1, h2, h3, h4⟩ :=
        styleTopLevelStep_entry_self m sIdx sibLen args0 st
          (hlt m (List.mem_cons_self m rest))
      refine ⟨ev, ?_, ?_, h3, h4⟩
      · rw [styleTopLevelGo]
        rw [styleTopLevelGo_events_frame rest _ _ _ _ hnd.1]
        exact h1
      · rw [styleTopLevelGo, styleTopLevelGo_entry_frame rest _ _ _ _ hnd.1]
        have hy : getYStyles m
            { args0 with
              events := (styleTopLevelGo rest (sIdx + 1) sibLen args0
                (styleTopLevelStep m sIdx sibLen args0 st)).events } =
            getYStyles m
            { args0 with
              events := (styleTopLevelStep m sIdx sibLen args0 st).events } := by
          refine getYStyles_congr ?_ ?_ ?_ ?_ m
          · rfl
          · rfl
          · rfl
          · exact styleTopLevelGo_projEv _ _ _ _ _
        rw [hy]
        exact h2
    | succ k =>
      rw [show (m :: rest).get ⟨k + 1, hk⟩ = rest.get ⟨k, by simpa using hk⟩ from rfl]
      have hne : rest.get ⟨k, by simpa using hk⟩ ≠ m := by
        intro h
        exact hnd.1 (h ▸ List.get_mem rest k (by simpa using hk))
      have hlt1 : ∀ x ∈ rest, x < (styleTopLevelStep m sIdx sibLen args0 st).events.length := by
        intro x hx
        rw [styleTopLevelStep_events_length]
        exact hlt x (List.mem_cons_of_mem m hx)
      obtain ⟨ev, h1, h2, h3, h4⟩ :=
        ih (sIdx + 1) (styleTopLevelStep m sIdx sibLen args0 st) hnd.2 hlt1 k
          (by simpa using hk)
      have hgd : (styleTopLevelStep m sIdx sibLen args0 st).events.getD
          (rest.get ⟨k, by simpa using hk⟩) default =
          st.events.getD (rest.get ⟨k, by simpa using hk⟩) default := by
        rw [List.getD_eq_getElem?_getD, List.getD_eq_getElem?_getD,
          styleTopLevelStep_events_frame _ _ _ _ _ hne]
      have harith : sIdx + 1 + k = sIdx + (k + 1) := by omega
      rw [styleTopLevelGo]
      refine ⟨ev, h1, ?_, ?_, ?_⟩
      · rw [← harith]
        exact h2
      · intro hsib
        obtain ⟨ha, hb, hc, hd⟩ := h3 hsib
        rw [harith] at hb hc
        exact ⟨ha, hb, hc, by rw [← hgd]; exact hd⟩
      · intro hz
        rw [← hgd]
        exact h4 hz

/-! ### The child-group styling phase -/

/-- Width given to a member of a child group of size `glen`, nested under a
parent of width `parentWidth`, in the `groupIndex`-th group. -/
def childWidth (parentWidth : ℚ) (groupIndex glen : ℕ) : ℚ :=
  if glen = 1 then 100 - 3 * ((groupIndex + 1 : ℕ) : ℚ)
  else (parentWidth - 3 * (groupIndex : ℚ)) / (glen : ℚ) - 3 / (glen : ℚ)

/-- Horizontal offset of member `i` of a child group of size `glen`. -/
def childXOffset (parentWidth parentXOffset : ℚ) (groupIndex glen i : ℕ) : ℚ :=
  if glen = 1 then 3 * ((groupIndex + 1 : ℕ) : ℚ)
  else parentXOffset + childWidth parentWidth groupIndex glen * (i : ℚ) +
    3 * ((groupIndex + 1 : ℕ) : ℚ)

theorem styleChildStep_events_length (group : List ℕ) (eventIdx i groupIndex parentIdx : ℕ)
    (args0 : DayViewArgs) (st : LayoutState) :
    (styleChildStep group eventIdx i groupIndex parentIdx args0 st).events.length =
      st.events.length := by
  simp only [styleChildStep]
  split <;> simp

theorem styleChildStep_projEv (group : List ℕ) (eventIdx i groupIndex parentIdx : ℕ)
    (args0 : DayViewArgs) (st : LayoutState) :
    (styleChildStep group eventIdx i groupIndex parentIdx args0 st).events.map projEv =
      st.events.map projEv := by
  simp only [styleChildStep]
  split
  · rfl
  · simp only [List.map_set]
    apply List.ext_getElem?
    intro n
    by_cases hn : n = eventIdx
    · subst hn
      by_cases hlt : n < st.events.length
      · rw [List.getElem?_set_self (by simpa using hlt), List.getElem?_map,
          List.getElem?_eq_getElem hlt]
        simp [projEv, List.getD_eq_getElem?_getD, List.getElem?_eq_getElem hlt]
      · rw [List.set_eq_of_length_le (by simpa using Nat.le_of_not_lt hlt)]
    · rw [List.getElem?_set_ne (Ne.symm hn)]

theorem styleChildStep_events_frame (group : List ℕ) (eventIdx i groupIndex parentIdx : ℕ)
    (args0 : DayViewArgs) (st : LayoutState) {p : ℕ} (hp : p ≠ eventIdx) :
    (styleChildStep group eventIdx i groupIndex parentIdx args0 st).events[p]? =
      st.events[p]? := by
  simp only [styleChildStep]
  split
  · rfl
  · simp only
    rw [List.getElem?_set_ne (Ne.symm hp)]

theorem styleChildStep_entry_frame (group : List ℕ) (eventIdx i groupIndex parentIdx : ℕ)
    (args0 : DayViewArgs) (st : LayoutState) {p : ℕ} (hp : p ≠ eventIdx) :
    entryAt (styleChildStep group eventIdx i groupIndex parentIdx args0 st) p =
      entryAt st p := by
  unfold entryAt
  simp only [styleChildStep]
  split <;> simp only <;> rw [getD_arraySet_ne _ _ hp]

theorem styleChildStep_styled_length (group : List ℕ) (eventIdx i groupIndex parentIdx : ℕ)
    (args0 : DayViewArgs) (st : LayoutState) :
    (styleChildStep group eventIdx i groupIndex parentIdx args0 st).styledEvents.length =
      Nat.max st.styledEvents.length (eventIdx + 1) := by
  simp only [styleChildStep]
  split <;> simp only <;> rw [length_arraySet]

theorem styleChildStep_parentStyle_frame (group : List ℕ)
    (eventIdx i groupIndex parentIdx : ℕ) (args0 : DayViewArgs) (st : LayoutState)
    (hp : parentIdx ≠ eventIdx) :
    parentStyleAt (styleChildStep group eventIdx i groupIndex parentIdx args0 st)
      parentIdx = parentStyleAt st parentIdx := by
  unfold parentStyleAt
  rw [show (styleChildStep group eventIdx i groupIndex parentIdx args0 st).styledEvents.getD
      parentIdx none = entryAt (styleChildStep group eventIdx i groupIndex parentIdx args0 st)
      parentIdx from rfl,
    styleChildStep_entry_frame _ _ _ _ _ _ _ hp]
  rfl

/-- What one child-group iteration writes at its own index. -/
theorem styleChildStep_entry_self (group : List ℕ) (eventIdx i groupIndex parentIdx : ℕ)
    (args0 : DayViewArgs) (st : LayoutState) (hlt : eventIdx < st.events.length) :
    ∃ ev : Event,
      (styleChildStep group eventIdx i groupIndex parentIdx args0 st).events[eventIdx]? =
        some ev ∧
      entryAt (styleChildStep group eventIdx i groupIndex parentIdx args0 st) eventIdx =
        some ⟨ev,
          ⟨(getYStyles eventIdx
              { args0 with
                events := (styleChildStep group eventIdx i groupIndex parentIdx args0 st).events }).top,
           (getYStyles eventIdx
              { args0 with
                events := (styleChildStep group eventIdx i groupIndex parentIdx args0 st).events }).height,
           childWidth (parentStyleAt st parentIdx).width groupIndex group.length,
           childXOffset (parentStyleAt st parentIdx).width
             (parentStyleAt st parentIdx).xOffset groupIndex group.length i⟩⟩ ∧
      (group.length ≠ 1 →
        ev.overlappingCount = some group.length ∧
        ev.groupNumber = some (groupIndex + 1) ∧
        ev.groupStart = some (decide (i = 0)) ∧
        ev.groupEnd = some (decide (i = group.length - 1)) ∧
        projEv ev = projEv (st.events.getD eventIdx default)) ∧
      (group.length = 1 → ev = st.events.getD eventIdx default) := by
  simp only [styleChildStep]
  by_cases hg : group.length = 1
  · rw [if_pos (by simp [isOnlyNestedElement, hg])]
    refine ⟨st.events.getD eventIdx default, ?_, ?_, fun h => absurd hg h, fun _ => rfl⟩
    · rw [List.getD_eq_getElem?_getD, List.getElem?_eq_getElem hlt]
      rfl
    · unfold entryAt
      rw [getD_arraySet_self]
      unfold childXOffset childWidth
      rw [if_pos hg, if_pos hg]
  · rw [if_neg (by simp [isOnlyNestedElement, hg])]
    refine ⟨{ st.events.getD eventIdx default with
        overlappingCount := some group.length,
        groupNumber := some (groupIndex + 1),
        groupStart := some (decide (i = 0)),
        groupEnd := some (decide (i = group.length - 1)) },
      ?_, ?_, fun _ => ⟨rfl, rfl, rfl, rfl, rfl⟩, fun h => absurd h hg⟩
    · rw [List.getElem?_set_self hlt]
    · unfold entryAt
      rw [getD_arraySet_self]
      have hget : (st.events.set eventIdx
          { st.events.getD eventIdx default with
            overlappingCount := some group.length,
            groupNumber := some (groupIndex + 1),
            groupStart := some (decide (i = 0)),
            groupEnd := some (decide (i = group.length - 1)) }).getD eventIdx default =
          { st.events.getD eventIdx default with
            overlappingCount := some group.length,
            groupNumber := some (groupIndex + 1),
            groupStart := some (decide (i = 0)),
            groupEnd := some (decide (i = group.length - 1)) } := by
        rw [List.getD_eq_getElem?_getD, List.getElem?_set_self hlt]
        rfl
      unfold childXOffset childWidth
      simp only [if_neg hg]

theorem styleChildGroupGo_events_length (memrest : List ℕ) (i0 : ℕ) (group : List ℕ)
    (groupIndex parentIdx : ℕ) (args0 : DayViewArgs) (st : LayoutState) :
    (styleChildGroupGo memrest i0 group groupIndex parentIdx args0 st).events.length =
      st.events.length := by
  induction memrest generalizing i0 st with
  | nil => rfl
  | cons m rest ih =>
    rw [styleChildGroupGo, ih, styleChildStep_events_length]

theorem styleChildGroupGo_projEv (memrest : List ℕ) (i0 : ℕ) (group : List ℕ)
    (groupIndex parentIdx : ℕ) (args0 : DayViewArgs) (st : LayoutState) :
    (styleChildGroupGo memrest i0 group groupIndex parentIdx args0 st).events.map projEv =
      st.events.map projEv := by
  induction memrest generalizing i0 st with
  | nil => rfl
  | cons m rest ih =>
    rw [styleChildGroupGo, ih, styleChildStep_projEv]

theorem styleChildGroupGo_events_frame (memrest : List ℕ) (i0 : ℕ) (group : List ℕ)
    (groupIndex parentIdx : ℕ) (args0 : DayViewArgs) (st : LayoutState) {p : ℕ}
    (hp : p ∉ memrest) :
    (styleChildGroupGo memrest i0 group groupIndex parentIdx args0 st).events[p]? =
      st.events[p]? := by
  induction memrest generalizing i0 st with
  | nil => rfl
  | cons m rest ih =>
    rw [styleChildGroupGo, ih _ _ (fun h => hp (List.mem_cons_of_mem m h)),
      styleChildStep_events_frame _ _ _ _ _ _ _
        (fun h => hp (by rw [h]; exact List.mem_cons_self m rest))]

theorem styleChildGroupGo_entry_frame (memrest : List ℕ) (i0 : ℕ) (group : List ℕ)
    (groupIndex parentIdx : ℕ) (args0 : DayViewArgs) (st : LayoutState) {p : ℕ}
    (hp : p ∉ memrest) :
    entryAt (styleChildGroupGo memrest i0 group groupIndex parentIdx args0 st) p =
      entryAt st p := by
  induction memrest generalizing i0 st with
  | nil => rfl
  | cons m rest ih =>
    rw [styleChildGroupGo, ih _ _ (fun h => hp (List.mem_cons_of_mem m h)),
      styleChildStep_entry_frame _ _ _ _ _ _ _
        (fun h => hp (by rw [h]; exact List.mem_cons_self m rest))]

theorem styleChildGroupGo_styled_length (memrest : List ℕ) (i0 : ℕ) (group : List ℕ)
    (groupIndex parentIdx : ℕ) (args0 : DayViewArgs) (st : LayoutState) :
    (styleChildGroupGo memrest i0 group groupIndex parentIdx args0 st).styledEvents.length =
      memrest.foldl (fun acc m => Nat.max acc (m + 1)) st.styledEvents.length := by
  induction memrest generalizing i0 st with
  | nil => rfl
  | cons m rest ih =>
    rw [styleChildGroupGo, ih, List.foldl_cons, styleChildStep_styled_length]

/-- What the child-group phase writes at the `k`-th member of one group. -/
theorem styleChildGroupGo_member (memrest : List ℕ) (group : List ℕ)
    (groupIndex parentIdx : ℕ) (args0 : DayViewArgs) :
    ∀ (i0 : ℕ) (st : LayoutState), memrest.Nodup →
      (∀ m ∈ memrest, m < st.events.length) → parentIdx ∉ memrest →
      ∀ k (hk : k < memrest.length),
      ∃ ev : Event,
        (styleChildGroupGo memrest i0 group groupIndex parentIdx args0 st).events[memrest.get ⟨k, hk⟩]? =
          some ev ∧
        entryAt (styleChildGroupGo memrest i0 group groupIndex parentIdx args0 st)
            (memrest.get ⟨k, hk⟩) =
          some ⟨ev,
            ⟨(getYStyles (memrest.get ⟨k, hk⟩)
                { args0 with
                  events := (styleChildGroupGo memrest i0 group groupIndex parentIdx args0 st).events }).top,
             (getYStyles (memrest.get ⟨k, hk⟩)
                { args0 with
                  events := (styleChildGroupGo memrest i0 group groupIndex parentIdx args0 st).events }).height,
             childWidth (parentStyleAt st parentIdx).width groupIndex group.length,
             childXOffset (parentStyleAt st parentIdx).width
               (parentStyleAt st parentIdx).xOffset groupIndex group.length (i0 + k)⟩⟩ ∧
        (group.length ≠ 1 →
          ev.overlappingCount = some group.length ∧
          ev.groupNumber = some (groupIndex + 1) ∧
          ev.groupStart = some (decide (i0 + k = 0)) ∧
          ev.groupEnd = some (decide (i0 + k = group.length - 1)) ∧
          projEv ev = projEv (st.events.getD (memrest.get ⟨k, hk⟩) default)) ∧
        (group.length = 1 → ev = st.events.getD (memrest.get ⟨k, hk⟩) default) := by
  induction memrest with
  | nil =>
    intro i0 st _ _ _ k hk
    exact absurd hk (by simp)
  | cons m rest ih =>
    intro i0 st hnd hlt hpar k hk
    rw [List.nodup_cons] at hnd
    have hparm : parentIdx ≠ m := fun h => hpar (by rw [h]; exact List.mem_cons_self m rest)
    have hparrest : parentIdx ∉ rest := fun h => hpar (List.mem_cons_of_mem m h)
    cases k with
    | zero =>
      rw [show (m :: rest).get ⟨0, hk⟩ = m from rfl, Nat.add_zero]
      obtain ⟨ev, h1, h2, h3, h4⟩ :=
        styleChildStep_entry_self group m i0 groupIndex parentIdx args0 st
          (hlt m (List.mem_cons_self m rest))
      refine ⟨ev, ?_, ?_, h3, h4⟩
      · rw [styleChildGroupGo]
        rw [styleChildGroupGo_events_frame rest _ _ _ _ _ _ hnd.1]
        exact h1
      · rw [styleChildGroupGo]
        rw [styleChildGroupGo_entry_frame rest _ _ _ _ _ _ hnd.1]
        have hy : getYStyles m
            { args0 with
              events := (styleChildGroupGo rest (i0 + 1) group groupIndex parentIdx args0
                (styleChildStep group m i0 groupIndex parentIdx args0 st)).events } =
            getYStyles m
            { args0 with
              events := (styleChildStep group m i0 groupIndex parentIdx args0 st).events } := by
          refine getYStyles_congr ?_ ?_ ?_ ?_ m
          · rfl
          · rfl
          · rfl
          · exact styleChildGroupGo_projEv _ _ _ _ _ _ _
        rw [hy]
        exact h2
    | succ k =>
      rw [show (m :: rest).get ⟨k + 1, hk⟩ = rest.get ⟨k, by simpa using hk⟩ from rfl]
      have hne : rest.get ⟨k, by simpa using hk⟩ ≠ m := by
        intro h
        exact hnd.1 (h ▸ List.get_mem rest k (by simpa using hk))
      have hlt1 : ∀ x ∈ rest,
          x < (styleChildStep group m i0 groupIndex parentIdx args0 st).events.length := by
        intro x hx
        rw [styleChildStep_events_length]
        exact hlt x (List.mem_cons_of_mem m hx)
      obtain ⟨ev, h1, h2, h3, h4⟩ :=
        ih (i0 + 1) (styleChildStep group m i0 groupIndex parentIdx args0 st) hnd.2 hlt1
          hparrest k (by simpa using hk)
      have hps : parentStyleAt (styleChildStep group m i0 groupIndex parentIdx args0 st)
          parentIdx = parentStyleAt st parentIdx :=
        styleChildStep_parentStyle_frame _ _ _ _ _ _ _ hparm
      have hgd : (styleChildStep group m i0 groupIndex parentIdx args0 st).events.getD
          (rest.get ⟨k, by simpa using hk⟩) default =
          st.events.getD (rest.get ⟨k, by simpa using hk⟩) default := by
        rw [List.getD_eq_getElem?_getD, List.getD_eq_getElem?_getD,
          styleChildStep_events_frame _ _ _ _ _ _ _ hne]
      have harith : i0 + 1 + k = i0 + (k + 1) := by omega
      rw [styleChildGroupGo]
      refine ⟨ev, h1, ?_, ?_, ?_⟩
      · rw [← harith, ← hps]
        exact h2
      · intro hsib
        obtain ⟨ha, hb, hc, hd, hd2⟩ := h3 hsib
        rw [harith] at hc hd
        exact ⟨ha, hb, hc, hd, by rw [← hgd]; exact hd2⟩
      · intro hz
        rw [← hgd]
        exact h4 hz

/-! ### The reparenting walk and the loop over all child groups -/

/-- The resolved parent is the cluster anchor or one of its siblings. -/
theorem resolveParent_mem (parentIdx : ℕ) (siblings : List ℕ) (c : ℕ)
    (args : DayViewArgs) :
    resolveParent parentIdx siblings c args ∈ parentIdx :: siblings := by
  induction siblings generalizing parentIdx with
  | nil => exact List.mem_cons_self _ _
  | cons s rest ih =>
    rw [resolveParent]
    split
    · exact List.mem_cons_of_mem _ (ih s)
    · exact List.mem_cons_self _ _

/-- The walk adopts exactly the maximal prefix of the run whose members are
all child-relation parents of the group's first member; the parent is the
last of them (the provisional parent when the prefix is empty). -/
theorem resolveParent_eq_getLastD (parentIdx : ℕ) (siblings : List ℕ) (c : ℕ)
    (args : DayViewArgs) :
    resolveParent parentIdx siblings c args =
      (siblings.takeWhile (fun s => isChild s c args)).getLastD parentIdx := by
  induction siblings generalizing parentIdx with
  | nil => rfl
  | cons s rest ih =>
    rw [resolveParent, List.takeWhile_cons]
    split
    · next h =>
      rw [List.getLastD_cons, ih s]
    · next h =>
      rfl

theorem styleGroupsGo_events_length (groups : List (List ℕ)) (gIdx idx : ℕ)
    (siblings : List ℕ) (args0 : DayViewArgs) (st : LayoutState) :
    (styleGroupsGo groups gIdx idx siblings args0 st).events.length =
      st.events.length := by
  induction groups generalizing gIdx st with
  | nil => rfl
  | cons g rest ih =>
    simp only [styleGroupsGo]
    rw [ih, styleChildGroupGo_events_length]

theorem styleGroupsGo_projEv (groups : List (List ℕ)) (gIdx idx : ℕ)
    (siblings : List ℕ) (args0 : DayViewArgs) (st : LayoutState) :
    (styleGroupsGo groups gIdx idx siblings args0 st).events.map projEv =
      st.events.map projEv := by
  induction groups generalizing gIdx st with
  | nil => rfl
  | cons g rest ih =>
    simp only [styleGroupsGo]
    rw [ih, styleChildGroupGo_projEv]

theorem styleGroupsGo_events_frame (groups : List (List ℕ)) (gIdx idx : ℕ)
    (siblings : List ℕ) (args0 : DayViewArgs) (st : LayoutState) {p : ℕ}
    (hp : p ∉ groups.flatten) :
    (styleGroupsGo groups gIdx idx siblings args0 st).events[p]? = st.events[p]? := by
  induction groups generalizing gIdx st with
  | nil => rfl
  | cons g rest ih =>
    rw [List.flatten_cons] at hp
    simp only [styleGroupsGo]
    rw [ih _ _ (fun h => hp (List.mem_append_right g h)),
      styleChildGroupGo_events_frame _ _ _ _ _ _ _
        (fun h => hp (List.mem_append_left _ h))]

theorem styleGroupsGo_entry_frame (groups : List (List ℕ)) (gIdx idx : ℕ)
    (siblings : List ℕ) (args0 : DayViewArgs) (st : LayoutState) {p : ℕ}
    (hp : p ∉ groups.flatten) :
    entryAt (styleGroupsGo groups gIdx idx siblings args0 st) p = entryAt st p := by
  induction groups generalizing gIdx st with
  | nil => rfl
  | cons g rest ih =>
    rw [List.flatten_cons] at hp
    simp only [styleGroupsGo]
    rw [ih _ _ (fun h => hp (List.mem_append_right g h)),
      styleChildGroupGo_entry_frame _ _ _ _ _ _ _
        (fun h => hp (List.mem_append_left _ h))]

theorem styleGroupsGo_styled_length (groups : List (List ℕ)) (gIdx idx : ℕ)
    (siblings : List ℕ) (args0 : DayViewArgs) (st : LayoutState) :
    (styleGroupsGo groups gIdx idx siblings args0 st).styledEvents.length =
      groups.flatten.foldl (fun acc m => Nat.max acc (m + 1))
        st.styledEvents.length := by
  induction groups generalizing gIdx st with
  | nil => rfl
  | cons g rest ih =>
    simp only [styleGroupsGo, List.flatten_cons]
    rw [ih, styleChildGroupGo_styled_length, List.foldl_append]

/-- Every index of a child group ends up with a styled entry holding the
event stored at that index, with vertical styles from `getYStyles`. -/
theorem styleGroupsGo_member (groups : List (List ℕ)) (args0 : DayViewArgs) :
    ∀ (gIdx idx : ℕ) (siblings : List ℕ) (st : LayoutState),
      groups.flatten.Nodup →
      (∀ m ∈ groups.flatten, m < st.events.length) →
      (∀ q ∈ idx :: siblings, q ∉ groups.flatten) →
      ∀ m ∈ groups.flatten,
      ∃ (ev : Event) (w x : ℚ),
        (styleGroupsGo groups gIdx idx siblings args0 st).events[m]? = some ev ∧
        entryAt (styleGroupsGo groups gIdx idx siblings args0 st) m =
          some ⟨ev,
            ⟨(getYStyles m
                { args0 with
                  events := (styleGroupsGo groups gIdx idx siblings args0 st).events }).top,
             (getYStyles m
                { args0 with
                  events := (styleGroupsGo groups gIdx idx siblings args0 st).events }).height,
             w, x⟩⟩ := by
  induction groups with
  | nil =>
    intro gIdx idx siblings st _ _ _ m hm
    exact absurd hm (by simp)
  | cons g rest ih =>
    intro gIdx idx siblings st hnd hlt hdisj m hm
    rw [List.flatten_cons] at hnd hlt hdisj hm
    rw [List.nodup_append] at hnd
    obtain ⟨hndg, hndrest, hdisj2⟩ := hnd
    have hpmem := resolveParent_mem idx siblings (g.headD 0)
      { args0 with events := st.events }
    have hpnot : resolveParent idx siblings (g.headD 0)
        { args0 with events := st.events } ∉ g ++ rest.flatten := hdisj _ hpmem
    simp only [styleGroupsGo]
    rcases List.mem_append.mp hm with hmg | hmrest
    · obtain ⟨n, hget⟩ := List.mem_iff_get.mp hmg
      obtain ⟨ev, h1, h2, -, -⟩ :=
        styleChildGroupGo_member g g gIdx
          (resolveParent idx siblings (g.headD 0) { args0 with events := st.events })
          args0 0 st hndg (fun q hq => hlt q (List.mem_append_left _ hq))
          (fun h => hpnot (List.mem_append_left _ h)) n.1 n.2
      rw [show g.get ⟨n.1, n.2⟩ = m from by rw [← hget]] at h1 h2
      have hmrest' : m ∉ rest.flatten := hdisj2 hmg
      have hy : getYStyles m
          { args0 with
            events := (styleGroupsGo rest (gIdx + 1) idx siblings args0
              (styleChildGroupGo g 0 g gIdx
                (resolveParent idx siblings (g.headD 0)
                  { args0 with events := st.events }) args0 st)).events } =
          getYStyles m
          { args0 with
            events := (styleChildGroupGo g 0 g gIdx
              (resolveParent idx siblings (g.headD 0)
                { args0 with events := st.events }) args0 st).events } := by
        refine getYStyles_congr ?_ ?_ ?_ ?_ m
        · rfl
        · rfl
        · rfl
        · exact styleGroupsGo_projEv _ _ _ _ _ _
      have hA : (styleGroupsGo rest (gIdx + 1) idx siblings args0
          (styleChildGroupGo g 0 g gIdx
            (resolveParent idx siblings (g.headD 0)
              { args0 with events := st.events }) args0 st)).events[m]? = some ev := by
        rw [styleGroupsGo_events_frame _ _ _ _ _ _ hmrest']
        exact h1
      have hB : entryAt (styleGroupsGo rest (gIdx + 1) idx siblings args0
          (styleChildGroupGo g 0 g gIdx
            (resolveParent idx siblings (g.headD 0)
              { args0 with events := st.events }) args0 st)) m =
          some ⟨ev,
            ⟨(getYStyles m
                { args0 with
                  events := (styleGroupsGo rest (gIdx + 1) idx siblings args0
                    (styleChildGroupGo g 0 g gIdx
                      (resolveParent idx siblings (g.headD 0)
                        { args0 with events := st.events }) args0 st)).events }).top,
             (getYStyles m
                { args0 with
                  events := (styleGroupsGo rest (gIdx + 1) idx siblings args0
                    (styleChildGroupGo g 0 g gIdx
                      (resolveParent idx siblings (g.headD 0)
                        { args0 with events := st.events }) args0 st)).events }).height,
             childWidth (parentStyleAt st
               (resolveParent idx siblings (g.headD 0)
                 { args0 with events := st.events })).width gIdx g.length,
             childXOffset (parentStyleAt st
                 (resolveParent idx siblings (g.headD 0)
                   { args0 with events := st.events })).width
               (parentStyleAt st
                 (resolveParent idx siblings (g.headD 0)
                   { args0 with events := st.events })).xOffset gIdx g.length
               (0 + n.1)⟩⟩ := by
        rw [styleGroupsGo_entry_frame _ _ _ _ _ _ hmrest', hy]
        exact h2
      exact ⟨ev, _, _, hA, hB⟩
    · have hlt1 : ∀ q ∈ rest.flatten,
          q < (styleChildGroupGo g 0 g gIdx
            (resolveParent idx siblings (g.headD 0)
              { args0 with events := st.events }) args0 st).events.length := by
        intro q hq
        rw [styleChildGroupGo_events_length]
        exact hlt q (List.mem_append_right g hq)
      exact ih (gIdx + 1) idx siblings _ hndrest hlt1
        (fun q hq h => hdisj q hq (List.mem_append_right g h)) m hmrest

/-! ### The driver loop: coverage invariant -/

theorem foldl_max_range' (n a : ℕ) :
    (List.range' a n).foldl (fun acc m => Nat.max acc (m + 1)) a = a + n := by
  induction n generalizing a with
  | zero => rfl
  | succ n ih =>
    rw [List.range'_succ, List.foldl_cons,
      show Nat.max a (a + 1) = a + 1 from Nat.max_eq_right (by omega), ih (a + 1)]
    omega

theorem getChildGroups_fst (idx nextIdx : ℕ) (args : DayViewArgs) :
    (getChildGroups idx nextIdx args).1 =
      childGroupsFrom args.events.length idx nextIdx args := rfl

/-- The driver's loop invariant after all clusters below `idx` are styled:
array lengths agree, `styledEvents` is dense up to exactly `idx`, the event
dates are those of the sorted input, events at and beyond the cursor are
untouched, and every styled entry holds the event stored at its position
with `getYStyles` vertical styles. -/
def Inv (args0 : DayViewArgs) (st : LayoutState) (idx : ℕ) : Prop :=
  st.events.length = args0.events.length ∧
  st.styledEvents.length = idx ∧
  st.events.map projEv = args0.events.map projEv ∧
  (∀ p, idx ≤ p → st.events[p]? = args0.events[p]?) ∧
  (∀ p, p < idx →
    ∃ (se : StyledEvent) (w x : ℚ),
      entryAt st p = some se ∧
      st.events[p]? = some se.event ∧
      se.style = ⟨(getYStyles p { args0 with events := st.events }).top,
                  (getYStyles p { args0 with events := st.events }).height, w, x⟩)

/-- One driver iteration preserves the invariant and moves the cursor to
the end of the cluster, which is still within the array. -/
theorem cluster_inv (args0 : DayViewArgs) (st : LayoutState) (idx k : ℕ)
    (siblings : List ℕ) (groups : List (List ℕ))
    (hInv : Inv args0 st idx) (h : idx < st.events.length)
    (hsib : siblings = List.range' (idx + 1) k)
    (hsiblt : ∀ x ∈ siblings, x < st.events.length)
    (hflat : groups.flatten = List.range' (idx + k + 1) ((groups.map List.length).sum))
    (hglt : ∀ x ∈ groups.flatten, x < st.events.length) :
    Inv args0 (styleGroupsGo groups 0 idx siblings args0
        (styleTopLevelGo (idx :: siblings) 0 siblings.length args0 st))
      (idx + 1 + siblings.length + (groups.map List.length).sum) ∧
    idx + 1 + siblings.length + (groups.map List.length).sum ≤ st.events.length := by
  obtain ⟨hlen, hsty, hproj, hfr, hent⟩ := hInv
  subst hsib
  set T := (groups.map List.length).sum with hT
  set n := st.events.length with hn
  set st1 := styleTopLevelGo (idx :: List.range' (idx + 1) k) 0
    (List.range' (idx + 1) k).length args0 st with hst1
  set st2 := styleGroupsGo groups 0 idx (List.range' (idx + 1) k) args0 st1 with hst2
  have hklen : (List.range' (idx + 1) k).length = k := List.length_range' _ _ _
  have hcons : idx :: List.range' (idx + 1) k = List.range' idx (k + 1) :=
    (List.range'_succ _ _ _).symm
  have hTLlt : ∀ m ∈ idx :: List.range' (idx + 1) k, m < st.events.length := by
    intro m hm
    rcases List.mem_cons.mp hm with rfl | hm'
    · exact h
    · exact hsiblt m hm'
  have hTLnd : (idx :: List.range' (idx + 1) k).Nodup := by
    rw [hcons]
    exact List.nodup_range' _ _
  have hGnd : groups.flatten.Nodup := by
    rw [hflat]
    exact List.nodup_range' _ _
  have hdisjTL : ∀ q ∈ idx :: List.range' (idx + 1) k, q ∉ groups.flatten := by
    intro q hq hq'
    rw [hcons, List.mem_range'_1] at hq
    rw [hflat, List.mem_range'_1] at hq'
    omega
  -- lengths of the two event arrays never change
  have hlen1 : st1.events.length = n := by
    rw [hst1, styleTopLevelGo_events_length]
  have hlen2 : st2.events.length = n := by
    rw [hst2, styleGroupsGo_events_length, hlen1]
  have hproj1 : st1.events.map projEv = st.events.map projEv := by
    rw [hst1]
    exact styleTopLevelGo_projEv _ _ _ _ _
  have hproj2 : st2.events.map projEv = st.events.map projEv := by
    rw [hst2, styleGroupsGo_projEv]
    exact hproj1
  -- the cursor stays within the array
  have hk0 : k ≠ 0 → idx + k < n := by
    intro hk
    exact hsiblt (idx + k) (List.mem_range'_1.mpr ⟨by omega, by omega⟩)
  have hT0 : T ≠ 0 → idx + k + T < n := by
    intro hTne
    apply hglt (idx + k + T)
    rw [hflat]
    exact List.mem_range'_1.mpr ⟨by omega, by omega⟩
  have hcursor : idx + 1 + k + T ≤ n := by
    rcases Nat.eq_zero_or_pos k with hk | hk <;> rcases Nat.eq_zero_or_pos T with hT' | hT'
    · omega
    · have := hT0 (by omega)
      omega
    · have := hk0 (by omega)
      omega
    · have := hT0 (by omega)
      omega
  refine ⟨⟨?_, ?_, ?_, ?_, ?_⟩, by omega⟩
  · rw [hlen2]
    exact hlen
  · rw [hst2, styleGroupsGo_styled_length, hst1, styleTopLevelGo_styled_length, hsty,
      hcons, foldl_max_range', hflat, hklen]
    rw [show idx + (k + 1) = idx + k + 1 from by omega, foldl_max_range']
    omega
  · rw [hproj2, hproj]
  · intro p hp
    rw [hklen] at hp
    have hp1 : p ∉ groups.flatten := by
      rw [hflat, List.mem_range'_1]
      omega
    have hp2 : p ∉ idx :: List.range' (idx + 1) k := by
      rw [hcons, List.mem_range'_1]
      omega
    rw [hst2, styleGroupsGo_events_frame _ _ _ _ _ _ hp1, hst1,
      styleTopLevelGo_events_frame _ _ _ _ _ hp2]
    exact hfr p (by omega)
  · intro p hp
    rw [hklen] at hp
    by_cases hpA : p < idx
    · -- entries styled by earlier clusters are untouched
      have hp1 : p ∉ groups.flatten := by
        rw [hflat, List.mem_range'_1]
        omega
      have hp2 : p ∉ idx :: List.range' (idx + 1) k := by
        rw [hcons, List.mem_range'_1]
        omega
      obtain ⟨se, w, x, hA, hB, hC⟩ := hent p hpA
      refine ⟨se, w, x, ?_, ?_, ?_⟩
      · rw [hst2, styleGroupsGo_entry_frame _ _ _ _ _ _ hp1, hst1,
          styleTopLevelGo_entry_frame _ _ _ _ _ hp2]
        exact hA
      · rw [hst2, styleGroupsGo_events_frame _ _ _ _ _ _ hp1, hst1,
          styleTopLevelGo_events_frame _ _ _ _ _ hp2]
        exact hB
      · have hy : getYStyles p { args0 with events := st2.events } =
            getYStyles p { args0 with events := st.events } := by
          refine getYStyles_congr ?_ ?_ ?_ ?_ p
          · rfl
          · rfl
          · rfl
          · exact hproj2
        rw [hy]
        exact hC
    · by_cases hpB : p < idx + k + 1
      · -- entries written by the top-level phase of this cluster
        have hp1 : p ∉ groups.flatten := by
          rw [hflat, List.mem_range'_1]
          omega
        have hk' : p - idx < (idx :: List.range' (idx + 1) k).length := by
          simp [hklen]
          omega
        have hsome : (idx :: List.range' (idx + 1) k)[p - idx]? = some p := by
          rw [hcons, List.getElem?_range' _ _ (by omega),
            show idx + 1 * (p - idx) = p from by omega]
        have hgetp : (idx :: List.range' (idx + 1) k).get ⟨p - idx, hk'⟩ = p := by
          rw [List.get_eq_getElem]
          refine Option.some.inj ?_
          rw [← List.getElem?_eq_getElem]
          exact hsome
        obtain ⟨ev, h1, h2, -, -⟩ :=
          styleTopLevelGo_member (idx :: List.range' (idx + 1) k)
            (List.range' (idx + 1) k).length args0 0 st hTLnd hTLlt (p - idx) hk'
        rw [hgetp] at h1 h2
        have hEntry : entryAt st2 p =
            some ⟨ev,
              ⟨(getYStyles p { args0 with events := st1.events }).top,
               (getYStyles p { args0 with events := st1.events }).height,
               topWidth (List.range' (idx + 1) k).length,
               topXOffset (List.range' (idx + 1) k).length (0 + (p - idx))⟩⟩ := by
          rw [hst2, styleGroupsGo_entry_frame _ _ _ _ _ _ hp1]
          exact h2
        have hEv : st2.events[p]? = some ev := by
          rw [hst2, styleGroupsGo_events_frame _ _ _ _ _ _ hp1]
          exact h1
        have hy : getYStyles p { args0 with events := st2.events } =
            getYStyles p { args0 with events := st1.events } := by
          refine getYStyles_congr ?_ ?_ ?_ ?_ p
          · rfl
          · rfl
          · rfl
          · rw [hst2]
            exact styleGroupsGo_projEv _ _ _ _ _ _
        refine ⟨⟨ev,
            ⟨(getYStyles p { args0 with events := st1.events }).top,
             (getYStyles p { args0 with events := st1.events }).height,
             topWidth (List.range' (idx + 1) k).length,
             topXOffset (List.range' (idx + 1) k).length (0 + (p - idx))⟩⟩,
          topWidth (List.range' (idx + 1) k).length,
          topXOffset (List.range' (idx + 1) k).length (0 + (p - idx)),
          hEntry, hEv, ?_⟩
        rw [hy]
      · -- entries written by the child-group phase of this cluster
        have hpC : p ∈ groups.flatten := by
          rw [hflat, List.mem_range'_1]
          omega
        have hlt1 : ∀ m ∈ groups.flatten, m < st1.events.length := by
          intro m hm
          rw [hlen1]
          exact hglt m hm
        obtain ⟨ev, w, x, h1, h2⟩ :=
          styleGroupsGo_member groups args0 0 idx (List.range' (idx + 1) k) st1 hGnd
            hlt1 hdisjTL p hpC
        exact ⟨⟨ev, _⟩, w, x, h2, h1, rfl⟩

/-- The driver establishes the invariant at the full array length: every
position of the sorted array ends up styled. -/
theorem driveFrom_inv (fuel : ℕ) :
    ∀ (args0 : DayViewArgs) (st : LayoutState) (idx : ℕ),
      Inv args0 st idx → idx ≤ st.events.length →
      st.events.length - idx ≤ fuel →
      Inv args0 (driveFrom fuel args0 st idx) args0.events.length := by
  induction fuel with
  | zero =>
    intro args0 st idx hInv hle hfuel
    have hidx : idx = st.events.length := by omega
    rw [driveFrom, ← hInv.1, ← hidx]
    exact hInv
  | succ fuel ih =>
    intro args0 st idx hInv hle hfuel
    simp only [driveFrom]
    split
    · next h =>
      obtain ⟨k, hsib⟩ := siblingsFrom_shape
        ({ args0 with events := st.events } : DayViewArgs).events.length idx (idx + 1)
        { args0 with events := st.events }
      have hsiblt : ∀ x ∈ getSiblings idx { args0 with events := st.events },
          x < st.events.length := fun x hx => siblingsFrom_mem_lt hx
      have hflat : ((getChildGroups idx
            (idx + (getSiblings idx { args0 with events := st.events }).length + 1)
            { args0 with events := st.events }).1).flatten =
          List.range' (idx + k + 1)
            ((((getChildGroups idx
              (idx + (getSiblings idx { args0 with events := st.events }).length + 1)
              { args0 with events := st.events }).1).map List.length).sum) := by
        rw [getChildGroups_fst]
        have := childGroupsFrom_flatten
          ({ args0 with events := st.events } : DayViewArgs).events.length idx
          (idx + (getSiblings idx { args0 with events := st.events }).length + 1)
          { args0 with events := st.events }
        rw [show (getSiblings idx { args0 with events := st.events }).length = k from by
          rw [show getSiblings idx { args0 with events := st.events } =
            List.range' (idx + 1) k from hsib, List.length_range']] at this ⊢
        rw [show idx + k + 1 = idx + 1 + k from by omega] at this ⊢
        exact this
      have hglt : ∀ x ∈ ((getChildGroups idx
            (idx + (getSiblings idx { args0 with events := st.events }).length + 1)
            { args0 with events := st.events }).1).flatten,
          x < st.events.length := by
        intro x hx
        rw [getChildGroups_fst] at hx
        obtain ⟨g, hg, hxg⟩ := List.mem_flatten.mp hx
        exact childGroupsFrom_mem_mem_lt hg hxg
      have hclu := cluster_inv args0 st idx k
        (getSiblings idx { args0 with events := st.events })
        ((getChildGroups idx
          (idx + (getSiblings idx { args0 with events := st.events }).length + 1)
          { args0 with events := st.events }).1)
        hInv h hsib hsiblt hflat hglt
      refine ih args0 _ _ hclu.1 ?_ ?_
      · rw [hclu.1.1, ← hInv.1]
        exact hclu.2
      · rw [hclu.1.1, ← hInv.1]
        omega
    · next h =>
      have hidx : idx = st.events.length := by omega
      rw [← hInv.1, ← hidx]
      exact hInv

theorem finalState_inv (args : DayViewArgs) :
    Inv { args with events := sort args.events } (finalState args)
      (sort args.events).length := by
  unfold finalState
  have hInv0 : Inv { args with events := sort args.events }
      ⟨sort args.events, []⟩ 0 :=
    ⟨rfl, rfl, rfl, fun _ _ => rfl, fun _ hp => absurd hp (by omega)⟩
  exact driveFrom_inv (sort args.events).length
    { args with events := sort args.events } ⟨sort args.events, []⟩ 0 hInv0
    (Nat.zero_le _) (by simp)

theorem sort_length (events : List Event) : (sort events).length = events.length :=
  (List.perm_insertionSort eventLE events).length_eq

/-! ### Concrete configurations used as witnesses -/

/-- Single event 09:00–10:00 in a full-day window (Scenario A). -/
def exampleA : DayViewArgs := ⟨[{ start := 540, stop := 600 }], 0, 1440, 30⟩

/-- Two events starting 09:00 with durations 1h and 2h (Scenario B). -/
def exampleB : DayViewArgs :=
  ⟨[{ start := 540, stop := 600 }, { start := 540, stop := 660 }], 0, 1440, 30⟩

/-- Parent 09:00–11:00 with nested child 09:45–10:15 (Scenario C). -/
def exampleC : DayViewArgs :=
  ⟨[{ start := 540, stop := 660 }, { start := 585, stop := 615 }], 0, 1440, 30⟩

/-- Anchor 00:00–01:00 with siblings at 00:10 (short) and 00:20 (long), and
a child at 00:50: the reparenting walk stops at the short first sibling even
though the later sibling still contains the child group. -/
def exampleR : DayViewArgs :=
  ⟨[{ start := 0, stop := 60 }, { start := 10, stop := 30 },
    { start := 20, stop := 70 }, { start := 50, stop := 55 }], 0, 1440, 30⟩

/-- Events starting 0, 29 and 30 minutes into the window: the 29-minute gap
is a sibling, the 30-minute gap is not. -/
def exampleThreshold : DayViewArgs :=
  ⟨[{ start := 0, stop := 60 }, { start := 29, stop := 60 },
    { start := 30, stop := 60 }], 0, 1440, 30⟩

/-! ### Claim theorems -/

theorem eventLE_dest {a b : Event} (h : eventLE a b) :
    a.start ≤ b.start ∧ (a.start = b.start → b.stop ≤ a.stop) := by
  unfold eventLE eventCmp at h
  split_ifs at h
  all_goals exact ⟨by omega, fun _ => by omega⟩

/-- C2: the sorter returns the same events (a permutation of the input,
modelling the in-place reorder-and-return), ordered by ascending start
time; for equal start times the event with the later end time precedes the
other (every earlier element has an end time at least as late); the
comparator order is total (and, with transitivity, the sorted result is
deterministic). -/
theorem C2_sort_spec (events : List Event) :
    (sort events).Perm events ∧
    List.Sorted eventLE (sort events) ∧
    (∀ i j (hi : i < (sort events).length) (hj : j < (sort events).length), i < j →
      ((sort events).get ⟨i, hi⟩).start ≤ ((sort events).get ⟨j, hj⟩).start ∧
      (((sort events).get ⟨i, hi⟩).start = ((sort events).get ⟨j, hj⟩).start →
        ((sort events).get ⟨j, hj⟩).stop ≤ ((sort events).get ⟨i, hi⟩).stop)) ∧
    (∀ a b : Event, eventLE a b ∨ eventLE b a) := by
  have hsorted : List.Sorted eventLE (sort events) :=
    List.sorted_insertionSort eventLE events
  refine ⟨List.perm_insertionSort eventLE events, hsorted, ?_, eventLE_total⟩
  intro i j hi hj hij
  exact eventLE_dest (hsorted.rel_get_of_lt
    (a := ⟨i, hi⟩) (b := ⟨j, hj⟩) (Fin.mk_lt_mk.mpr hij))

/-- Witness for C2 on Scenario B: two events starting together, the longer
one sorted first. -/
theorem C2_sort_spec_witness :
    ∃ hi : 0 < (sort exampleB.events).length,
    ∃ hj : 1 < (sort exampleB.events).length,
      ((sort exampleB.events).get ⟨0, hi⟩).start ≤
        ((sort exampleB.events).get ⟨1, hj⟩).start ∧
      (((sort exampleB.events).get ⟨0, hi⟩).start =
          ((sort exampleB.events).get ⟨1, hj⟩).start →
        ((sort exampleB.events).get ⟨1, hj⟩).stop ≤
          ((sort exampleB.events).get ⟨0, hi⟩).stop) :=
  ⟨by decide, by decide,
    (C2_sort_spec exampleB.events).2.2.1 0 1 (by decide) (by decide) (by decide)⟩

/-- C3: for indices of existing events, `isSibling` holds exactly when the
projected start slots differ by strictly less than 30 minutes — so slots
exactly 30 apart are not siblings while 29 apart are. -/
theorem C3_isSibling_iff (args : DayViewArgs) (i j : ℕ) (e1 e2 : Event)
    (h1 : args.events[i]? = some e1) (h2 : args.events[j]? = some e2) :
    isSibling i j args = true ↔
      ((positionFromDate e1.start args.min args.totalMin : ℤ) -
        (positionFromDate e2.start args.min args.totalMin : ℤ)).natAbs < 30 := by
  unfold isSibling
  rw [h1, h2]
  simp

/-- Witness for C3: events 29 minutes apart are siblings, events exactly 30
minutes apart are not. -/
theorem C3_isSibling_iff_witness :
    (isSibling 0 1 exampleThreshold = true ↔
      ((positionFromDate 0 0 1440 : ℤ) -
        (positionFromDate 29 0 1440 : ℤ)).natAbs < 30) ∧
    (isSibling 0 2 exampleThreshold = true ↔
      ((positionFromDate 0 0 1440 : ℤ) -
        (positionFromDate 30 0 1440 : ℤ)).natAbs < 30) ∧
    isSibling 0 1 exampleThreshold = true ∧
    isSibling 0 2 exampleThreshold = false :=
  ⟨C3_isSibling_iff exampleThreshold 0 1 { start := 0, stop := 60 }
      { start := 29, stop := 60 } rfl rfl,
   C3_isSibling_iff exampleThreshold 0 2 { start := 0, stop := 60 }
      { start := 30, stop := 60 } rfl rfl,
   by decide, by decide⟩

/-- C4: for indices of existing events, a sibling of a candidate parent is
never its child, whatever the end-time overlap; otherwise `isChild` holds
exactly when the parent's projected end slot strictly exceeds the child's
projected start slot. -/
theorem C4_isChild_spec (args : DayViewArgs) (p c : ℕ) (e1 e2 : Event)
    (h1 : args.events[p]? = some e1) (h2 : args.events[c]? = some e2) :
    (isSibling p c args = true → isChild p c args = false) ∧
    (isSibling p c args = false →
      (isChild p c args = true ↔
        positionFromDate e1.stop args.min args.totalMin >
          positionFromDate e2.start args.min args.totalMin)) := by
  constructor
  · intro hs
    unfold isChild
    rw [if_pos hs]
  · intro hs
    unfold isChild
    rw [if_neg (by rw [hs]; simp), h1, h2]
    simp [getSlot]

/-- Witness for C4 on Scenario C: the nested event is a child of the
parent because the parent's end slot exceeds its start slot. -/
theorem C4_isChild_spec_witness :
    ((isSibling 0 1 exampleC = true → isChild 0 1 exampleC = false) ∧
      (isSibling 0 1 exampleC = false →
        (isChild 0 1 exampleC = true ↔
          positionFromDate 660 0 1440 > positionFromDate 585 0 1440))) ∧
    isSibling 0 1 exampleC = false ∧ isChild 0 1 exampleC = true :=
  ⟨C4_isChild_spec exampleC 0 1 { start := 540, stop := 660 }
      { start := 585, stop := 615 } rfl rfl,
   by decide, by decide⟩

theorem getYStyles_top_eq (idx : ℕ) (args : DayViewArgs) (e : Event)
    (h : args.events[idx]? = some e) :
    (getYStyles idx args).top =
      (positionFromDate e.start args.min args.totalMin : ℚ) /
        (args.totalMin : ℚ) * 100 := by
  unfold getYStyles
  rw [h]

theorem getYStyles_height_eq (idx : ℕ) (args : DayViewArgs) (e : Event)
    (h : args.events[idx]? = some e) :
    (getYStyles idx args).height =
      ((Nat.max (positionFromDate e.stop args.min args.totalMin)
          (positionFromDate e.start args.min args.totalMin + args.step) : ℕ) : ℚ) /
        (args.totalMin : ℚ) * 100 -
      (positionFromDate e.start args.min args.totalMin : ℚ) /
        (args.totalMin : ℚ) * 100 := by
  unfold getYStyles
  rw [h]

theorem getYStyles_floor (idx : ℕ) (args : DayViewArgs) (e : Event)
    (h : args.events[idx]? = some e) :
    100 * (args.step : ℚ) / (args.totalMin : ℚ) ≤ (getYStyles idx args).height ∧
    0 ≤ (getYStyles idx args).height := by
  rw [getYStyles_height_eq idx args e h]
  set s := positionFromDate e.start args.min args.totalMin with hs
  set e' := Nat.max (positionFromDate e.stop args.min args.totalMin)
    (s + args.step) with he'
  have hse : (s : ℚ) + (args.step : ℚ) ≤ (e' : ℚ) := by
    rw [he']
    exact_mod_cast Nat.le_max_right _ _
  rcases eq_or_ne ((args.totalMin : ℚ)) 0 with ht | ht
  · rw [ht]
    simp
  · have htpos : (0:ℚ) < (args.totalMin : ℚ) :=
      lt_of_le_of_ne (Nat.cast_nonneg _) (Ne.symm ht)
    have h0 : 0 ≤ ((e' : ℚ) - (s : ℚ) - (args.step : ℚ)) * 100 / (args.totalMin : ℚ) :=
      div_nonneg (mul_nonneg (by linarith) (by norm_num)) (le_of_lt htpos)
    have h1 : (0:ℚ) ≤ 100 * (args.step : ℚ) / (args.totalMin : ℚ) := by positivity
    have heq : (e' : ℚ) / (args.totalMin : ℚ) * 100 -
        (s : ℚ) / (args.totalMin : ℚ) * 100 =
        100 * (args.step : ℚ) / (args.totalMin : ℚ) +
        ((e' : ℚ) - (s : ℚ) - (args.step : ℚ)) * 100 / (args.totalMin : ℚ) := by
      ring
    constructor
    · linarith
    · linarith

/-- C5: for an existing event, `top` is `100 × startSlot / totalMin` and
`height` is `100 × (endSlot − startSlot) / totalMin` after the end slot is
floored at `startSlot + step`; hence the height is at least
`100 × step / totalMin` and never negative, also for zero-duration or
inverted events — and every entry of the pipeline's output satisfies the
same floor. -/
theorem C5_y_styles (args : DayViewArgs) :
    (∀ (idx : ℕ) (e : Event), args.events[idx]? = some e →
      (getYStyles idx args).top =
        100 * (positionFromDate e.start args.min args.totalMin : ℚ) /
          (args.totalMin : ℚ) ∧
      (getYStyles idx args).height =
        100 * (((Nat.max (positionFromDate e.stop args.min args.totalMin)
            (positionFromDate e.start args.min args.totalMin + args.step) : ℕ) : ℚ) -
          (positionFromDate e.start args.min args.totalMin : ℚ)) /
          (args.totalMin : ℚ) ∧
      100 * (args.step : ℚ) / (args.totalMin : ℚ) ≤ (getYStyles idx args).height ∧
      0 ≤ (getYStyles idx args).height) ∧
    (∀ (i : ℕ) (se : StyledEvent), (getStyledEvents args)[i]? = some (some se) →
      100 * (args.step : ℚ) / (args.totalMin : ℚ) ≤ se.style.height ∧
      0 ≤ se.style.height) := by
  constructor
  · intro idx e h
    obtain ⟨hfl, hnn⟩ := getYStyles_floor idx args e h
    refine ⟨?_, ?_, hfl, hnn⟩
    · rw [getYStyles_top_eq idx args e h]
      ring
    · rw [getYStyles_height_eq idx args e h]
      ring
  · intro i se h
    obtain ⟨hlen, hsty, hproj, hfr, hent⟩ := finalState_inv args
    have hi : i < (finalState args).styledEvents.length := by
      by_contra hn
      rw [getStyledEvents, List.getElem?_eq_none (by omega)] at h
      exact Option.noConfusion h
    rw [hsty] at hi
    obtain ⟨se', w, x, hA, hB, hC⟩ := hent i hi
    have hAe : entryAt (finalState args) i = some se := by
      unfold entryAt
      rw [List.getD_eq_getElem?_getD,
        show (finalState args).styledEvents[i]? = some (some se) from h]
      rfl
    have hse : se' = se := by
      rw [hAe] at hA
      exact (Option.some.inj hA).symm
    subst hse
    have hfl := getYStyles_floor i
      { events := (finalState args).events, min := args.min,
        totalMin := args.totalMin, step := args.step } se'.event hB
    rw [hC]
    exact hfl

/-- Witness for C5 on Scenario A: a one-hour event at 09:00 in a full-day
window. -/
theorem C5_y_styles_witness :
    ((getYStyles 0 exampleA).top =
        100 * (positionFromDate 540 0 1440 : ℚ) / (1440 : ℕ) ∧
      (getYStyles 0 exampleA).height =
        100 * (((Nat.max (positionFromDate 600 0 1440)
            (positionFromDate 540 0 1440 + 30) : ℕ) : ℚ) -
          (positionFromDate 540 0 1440 : ℚ)) / (1440 : ℕ) ∧
      100 * ((30 : ℕ) : ℚ) / ((1440 : ℕ) : ℚ) ≤ (getYStyles 0 exampleA).height ∧
      0 ≤ (getYStyles 0 exampleA).height) ∧
    (∀ (i : ℕ) (se : StyledEvent), (getStyledEvents exampleA)[i]? = some (some se) →
      100 * ((30 : ℕ) : ℚ) / ((1440 : ℕ) : ℚ) ≤ se.style.height ∧
      0 ≤ se.style.height) :=
  ⟨(C5_y_styles exampleA).1 0 { start := 540, stop := 600 } rfl,
   (C5_y_styles exampleA).2⟩

/-- C6: in the top-level phase of a cluster whose sibling run (anchor
included) has size `n ≥ 2`, the `k`-th member gets width `100/n` and
horizontal offset `k × (100/n)`, and its `overlappingCount` is set to `n`;
a run of size 1 gets width `100` and offset `0`. -/
theorem C6_top_level_partition (args0 : DayViewArgs) (st : LayoutState) (idx : ℕ)
    (siblings : List ℕ) (h : idx < st.events.length)
    (hsib : siblings = getSiblings idx { args0 with events := st.events }) :
    (2 ≤ siblings.length + 1 → ∀ k, k < siblings.length + 1 →
      ∃ (ev : Event) (top height : ℚ),
        entryAt (styleTopLevelGo (idx :: siblings) 0 siblings.length args0 st)
            (idx + k) =
          some ⟨ev, ⟨top, height, 100 / ((siblings.length + 1 : ℕ) : ℚ),
            (k : ℚ) * (100 / ((siblings.length + 1 : ℕ) : ℚ))⟩⟩ ∧
        ev.overlappingCount = some (siblings.length + 1)) ∧
    (siblings.length + 1 = 1 →
      ∃ (ev : Event) (top height : ℚ),
        entryAt (styleTopLevelGo (idx :: siblings) 0 siblings.length args0 st) idx =
          some ⟨ev, ⟨top, height, 100, 0⟩⟩) := by
  obtain ⟨kk, hkk⟩ := siblingsFrom_shape
    ({ args0 with events := st.events } : DayViewArgs).events.length idx (idx + 1)
    { args0 with events := st.events }
  have hshape : siblings = List.range' (idx + 1) kk := by rw [hsib]; exact hkk
  have hklen : siblings.length = kk := by rw [hshape, List.length_range']
  have hnd : (idx :: siblings).Nodup := by
    rw [hshape, show idx :: List.range' (idx + 1) kk = List.range' idx (kk + 1) from
      (List.range'_succ _ _ _).symm]
    exact List.nodup_range' _ _
  have hlt : ∀ m ∈ idx :: siblings, m < st.events.length := by
    intro m hm
    rcases List.mem_cons.mp hm with rfl | hm'
    · exact h
    · rw [hsib] at hm'
      exact siblingsFrom_mem_lt hm'
  constructor
  · intro h2 k hklt
    have hkmem : k < (idx :: siblings).length := by simp; omega
    have hlen0 : siblings.length ≠ 0 := by omega
    obtain ⟨ev, h1m, h2m, h3m, -⟩ :=
      styleTopLevelGo_member (idx :: siblings) siblings.length args0 0 st hnd hlt k hkmem
    rw [Nat.zero_add] at h2m h3m
    have hget : (idx :: siblings).get ⟨k, hkmem⟩ = idx + k := by
      have hsome : (idx :: siblings)[k]? = some (idx + k) := by
        rw [show idx :: siblings = List.range' idx (kk + 1) from by
          rw [hshape]; exact (List.range'_succ _ _ _).symm]
        rw [List.getElem?_range' _ _ (by omega), Nat.one_mul]
      rw [List.get_eq_getElem]
      refine Option.some.inj ?_
      rw [← List.getElem?_eq_getElem]
      exact hsome
    rw [hget] at h1m h2m h3m
    have hW : topWidth siblings.length = 100 / ((siblings.length + 1 : ℕ) : ℚ) := by
      unfold topWidth
      rw [if_neg hlen0]
    have hX : topXOffset siblings.length k =
        (k : ℚ) * (100 / ((siblings.length + 1 : ℕ) : ℚ)) := by
      unfold topXOffset topWidth
      rw [if_neg hlen0, if_neg hlen0]
      rcases Nat.eq_zero_or_pos k with hk0 | hk0
      · subst hk0
        simp
      · rw [if_neg (by omega), mul_comm]
    rw [hW, hX] at h2m
    exact ⟨ev, _, _, h2m, (h3m hlen0).1⟩
  · intro h1
    have hlen0 : siblings.length = 0 := by omega
    have hnil : siblings = [] := List.length_eq_zero.mp hlen0
    subst hnil
    obtain ⟨ev, h1m, h2m, -, -⟩ :=
      styleTopLevelGo_member [idx] 0 args0 0 st (by simp) (by simpa using h) 0 (by simp)
    rw [show ([idx] : List ℕ).get ⟨0, by simp⟩ = idx from rfl] at h2m
    rw [show topWidth 0 = (100 : ℚ) from rfl, show topXOffset 0 (0 + 0) = (0 : ℚ) from rfl]
      at h2m
    exact ⟨ev, _, _, h2m⟩

/-- Witness for C6 on Scenario B: the sorted pair forms a run of size 2;
its second member gets width 50 and offset 50. -/
theorem C6_top_level_partition_witness :
    ∃ (ev : Event) (top height : ℚ),
      entryAt (styleTopLevelGo (0 :: [1]) 0 [1].length exampleB
          ⟨sort exampleB.events, []⟩) (0 + 1) =
        some ⟨ev, ⟨top, height, 100 / (([1].length + 1 : ℕ) : ℚ),
          ((1 : ℕ) : ℚ) * (100 / (([1].length + 1 : ℕ) : ℚ))⟩⟩ ∧
      ev.overlappingCount = some ([1].length + 1) :=
  (C6_top_level_partition exampleB ⟨sort exampleB.events, []⟩ 0 [1] (by decide)
    (by decide)).1 (by decide) 1 (by decide)

/-- C8: in the child-group phase, a group of size `n ≥ 2` under a parent
entry of style `pse.style` gives member `i` the width
`(parentWidth − 3·groupIndex)/n − 3/n` and offset
`parentXOffset + width·i + 3·groupNumber`, writing `overlappingCount`,
`groupNumber`, `groupStart` and `groupEnd` onto the event; a single-member
group instead gets offset `3·groupNumber` and width `100 − 3·groupNumber`,
with the event left unmodified (no metadata attached). -/
theorem C8_child_group_sizing (args0 : DayViewArgs) (st : LayoutState)
    (group : List ℕ) (groupIndex parentIdx : ℕ) (pse : StyledEvent)
    (hnd : group.Nodup) (hlt : ∀ m ∈ group, m < st.events.length)
    (hp : parentIdx ∉ group) (hpse : entryAt st parentIdx = some pse) :
    (2 ≤ group.length → ∀ k (hk : k < group.length),
      ∃ (ev : Event) (top height : ℚ),
        entryAt (styleChildGroupGo group 0 group groupIndex parentIdx args0 st)
            (group.get ⟨k, hk⟩) =
          some ⟨ev, ⟨top, height,
            (pse.style.width - 3 * (groupIndex : ℚ)) / (group.length : ℚ) -
              3 / (group.length : ℚ),
            pse.style.xOffset +
              ((pse.style.width - 3 * (groupIndex : ℚ)) / (group.length : ℚ) -
                3 / (group.length : ℚ)) * (k : ℚ) +
              3 * ((groupIndex + 1 : ℕ) : ℚ)⟩⟩ ∧
        ev.overlappingCount = some group.length ∧
        ev.groupNumber = some (groupIndex + 1) ∧
        ev.groupStart = some (decide (k = 0)) ∧
        ev.groupEnd = some (decide (k = group.length - 1))) ∧
    (group.length = 1 → ∀ k (hk : k < group.length),
      ∃ (ev : Event) (top height : ℚ),
        entryAt (styleChildGroupGo group 0 group groupIndex parentIdx args0 st)
            (group.get ⟨k, hk⟩) =
          some ⟨ev, ⟨top, height, 100 - 3 * ((groupIndex + 1 : ℕ) : ℚ),
            3 * ((groupIndex + 1 : ℕ) : ℚ)⟩⟩ ∧
        ev = st.events.getD (group.get ⟨k, hk⟩) default) := by
  have hps : parentStyleAt st parentIdx = pse.style := by
    unfold parentStyleAt
    rw [show st.styledEvents.getD parentIdx none = entryAt st parentIdx from rfl, hpse]
  constructor
  · intro h2 k hk
    have hne1 : group.length ≠ 1 := by omega
    obtain ⟨ev, -, h2m, h3m, -⟩ :=
      styleChildGroupGo_member group group groupIndex parentIdx args0 0 st hnd hlt hp k hk
    rw [Nat.zero_add] at h2m h3m
    rw [hps] at h2m
    have hW : childWidth pse.style.width groupIndex group.length =
        (pse.style.width - 3 * (groupIndex : ℚ)) / (group.length : ℚ) -
          3 / (group.length : ℚ) := by
      unfold childWidth
      rw [if_neg hne1]
    have hX : childXOffset pse.style.width pse.style.xOffset groupIndex group.length k =
        pse.style.xOffset +
          ((pse.style.width - 3 * (groupIndex : ℚ)) / (group.length : ℚ) -
            3 / (group.length : ℚ)) * (k : ℚ) +
          3 * ((groupIndex + 1 : ℕ) : ℚ) := by
      unfold childXOffset childWidth
      rw [if_neg hne1, if_neg hne1]
    rw [hW, hX] at h2m
    obtain ⟨ha, hb, hc, hd, -⟩ := h3m hne1
    exact ⟨ev, _, _, h2m, ha, hb, hc, hd⟩
  · intro h1 k hk
    obtain ⟨ev, -, h2m, -, h4m⟩ :=
      styleChildGroupGo_member group group groupIndex parentIdx args0 0 st hnd hlt hp k hk
    rw [Nat.zero_add] at h2m
    rw [hps] at h2m
    have hW : childWidth pse.style.width groupIndex group.length =
        100 - 3 * ((groupIndex + 1 : ℕ) : ℚ) := by
      unfold childWidth
      rw [if_pos h1]
    have hX : childXOffset pse.style.width pse.style.xOffset groupIndex group.length k =
        3 * ((groupIndex + 1 : ℕ) : ℚ) := by
      unfold childXOffset
      rw [if_pos h1]
    rw [hW, hX] at h2m
    exact ⟨ev, _, _, h2m, h4m h1⟩

/-- A three-event state whose first event is already styled full-width,
used to exercise the child-group sizing. -/
def exampleChildState : LayoutState :=
  ⟨[{ start := 0, stop := 120 }, { start := 40, stop := 70 },
    { start := 50, stop := 80 }],
   [some ⟨{ start := 0, stop := 120 }, ⟨0, 10, 100, 0⟩⟩]⟩

/-- Witness for C8: a two-member child group under the styled parent. -/
theorem C8_child_group_sizing_witness :
    ∃ (ev : Event) (top height : ℚ),
      entryAt (styleChildGroupGo [1, 2] 0 [1, 2] 0 0 exampleR exampleChildState)
          (([1, 2] : List ℕ).get ⟨0, by decide⟩) =
        some ⟨ev, ⟨top, height,
          (((⟨{ start := 0, stop := 120 }, ⟨0, 10, 100, 0⟩⟩ : StyledEvent)).style.width -
              3 * ((0 : ℕ) : ℚ)) / (([1, 2] : List ℕ).length : ℚ) -
            3 / (([1, 2] : List ℕ).length : ℚ),
          (⟨{ start := 0, stop := 120 }, ⟨0, 10, 100, 0⟩⟩ : StyledEvent).style.xOffset +
            (((⟨{ start := 0, stop := 120 }, ⟨0, 10, 100, 0⟩⟩ : StyledEvent).style.width -
                3 * ((0 : ℕ) : ℚ)) / (([1, 2] : List ℕ).length : ℚ) -
              3 / (([1, 2] : List ℕ).length : ℚ)) * ((0 : ℕ) : ℚ) +
            3 * (((0 : ℕ) + 1 : ℕ) : ℚ)⟩⟩ ∧
      ev.overlappingCount = some ([1, 2] : List ℕ).length ∧
      ev.groupNumber = some (0 + 1) ∧
      ev.groupStart = some (decide (0 = 0)) ∧
      ev.groupEnd = some (decide (0 = ([1, 2] : List ℕ).length - 1)) :=
  (C8_child_group_sizing exampleR exampleChildState [1, 2] 0 0
      ⟨{ start := 0, stop := 120 }, ⟨0, 10, 100, 0⟩⟩
      (by decide) (by decide) (by decide) (by decide)).1 (by decide) 0 (by decide)

/-- C7 (amended): the effective parent of a child group is found by walking
forward through the anchor's sibling run, adopting each next sibling while
it is a child-relation parent of the group's first member; the group
therefore ends up parented to the last member of the maximal prefix of the
run all of whose members are such parents (the anchor when that prefix is
empty) — not, in general, to the latest sibling of the run that still
contains it. -/
theorem C7_reparenting (parentIdx : ℕ) (siblings : List ℕ) (c : ℕ)
    (args : DayViewArgs) :
    resolveParent parentIdx siblings c args =
      (siblings.takeWhile (fun s => isChild s c args)).getLastD parentIdx ∧
    resolveParent parentIdx siblings c args ∈ parentIdx :: siblings :=
  ⟨resolveParent_eq_getLastD parentIdx siblings c args,
   resolveParent_mem parentIdx siblings c args⟩

/-- C7 counterexample: in `exampleR` (already sorted) the cluster anchored
at 0 has sibling run `[1, 2]` and one child group `[3]`; sibling 2 is a
child-relation parent of event 3 — the latest sibling that still contains
the group — yet the walk stops at sibling 1, so the group stays parented to
the anchor 0, not to 2. -/
theorem C7_counterexample :
    sort exampleR.events = exampleR.events ∧
    getSiblings 0 exampleR = [1, 2] ∧
    (getChildGroups 0 3 exampleR).1 = [[3]] ∧
    isChild 2 3 exampleR = true ∧
    resolveParent 0 [1, 2] 3 exampleR = 0 ∧
    resolveParent 0 [1, 2] 3 exampleR ≠ 2 := by decide

/-- C10: the resolved parent of a child group is always the cluster anchor
or one of its run's siblings; `isChild` is `false` as soon as the walk's
index leaves the event array (the missing event's slot read fails); and
after the top-level phase each of those candidate parents has a defined
`styledEvents` entry, which the whole child-group phase leaves untouched —
so every `styledEvents[parentIdx].style` read is defined. -/
theorem C10_parent_read_safe (args0 : DayViewArgs) (st : LayoutState) (idx : ℕ)
    (siblings : List ℕ) (groups : List (List ℕ))
    (h : idx < st.events.length)
    (hsib : siblings = getSiblings idx { args0 with events := st.events })
    (hgrp : groups = (getChildGroups idx (idx + siblings.length + 1)
      { args0 with events := st.events }).1) :
    (∀ (p : ℕ) (sibs : List ℕ) (c : ℕ) (a : DayViewArgs),
      resolveParent p sibs c a ∈ p :: sibs) ∧
    (∀ (p c : ℕ) (a : DayViewArgs), a.events.length ≤ p → isChild p c a = false) ∧
    (∀ q ∈ idx :: siblings,
      (∃ se : StyledEvent,
        entryAt (styleTopLevelGo (idx :: siblings) 0 siblings.length args0 st) q =
          some se) ∧
      entryAt (styleGroupsGo groups 0 idx siblings args0
          (styleTopLevelGo (idx :: siblings) 0 siblings.length args0 st)) q =
        entryAt (styleTopLevelGo (idx :: siblings) 0 siblings.length args0 st) q) := by
  refine ⟨resolveParent_mem, ?_, ?_⟩
  · intro p c a hp
    unfold isChild
    split
    · next hs => exact absurd (isSibling_lt_left hs) (by omega)
    · rw [List.getElem?_eq_none hp]
      rcases getSlot a.events[c]? Event.start a.min a.totalMin with _ | y <;>
        simp [getSlot]
  · obtain ⟨kk, hkk⟩ := siblingsFrom_shape
      ({ args0 with events := st.events } : DayViewArgs).events.length idx (idx + 1)
      { args0 with events := st.events }
    have hshape : siblings = List.range' (idx + 1) kk := by rw [hsib]; exact hkk
    have hklen : siblings.length = kk := by rw [hshape, List.length_range']
    have hcons : idx :: siblings = List.range' idx (kk + 1) := by
      rw [hshape]
      exact (List.range'_succ _ _ _).symm
    have hnd : (idx :: siblings).Nodup := by
      rw [hcons]
      exact List.nodup_range' _ _
    have hlt : ∀ m ∈ idx :: siblings, m < st.events.length := by
      intro m hm
      rcases List.mem_cons.mp hm with rfl | hm'
      · exact h
      · rw [hsib] at hm'
        exact siblingsFrom_mem_lt hm'
    have hflat : groups.flatten =
        List.range' (idx + kk + 1) ((groups.map List.length).sum) := by
      rw [hgrp, getChildGroups_fst, hklen]
      exact childGroupsFrom_flatten _ _ _ _
    intro q hq
    have hqlt : q < idx + kk + 1 := by
      rw [hcons, List.mem_range'_1] at hq
      omega
    have hqge : idx ≤ q := by
      rw [hcons, List.mem_range'_1] at hq
      omega
    constructor
    · have hkmem : q - idx < (idx :: siblings).length := by
        simp [hklen]
        omega
      obtain ⟨ev, -, h2m, -, -⟩ :=
        styleTopLevelGo_member (idx :: siblings) siblings.length args0 0 st hnd hlt
          (q - idx) hkmem
      have hget : (idx :: siblings).get ⟨q - idx, hkmem⟩ = q := by
        have hsome : (idx :: siblings)[q - idx]? = some q := by
          rw [hcons, List.getElem?_range' _ _ (by omega), Nat.one_mul]
          congr 1
          omega
        rw [List.get_eq_getElem]
        refine Option.some.inj ?_
        rw [← List.getElem?_eq_getElem]
        exact hsome
      rw [hget] at h2m
      exact ⟨_, h2m⟩
    · apply styleGroupsGo_entry_frame
      rw [hflat, List.mem_range'_1]
      omega

/-- Witness for C10 on `exampleR`: the anchor 0 with sibling run `[1, 2]`
and child groups `[[3]]`. -/
theorem C10_parent_read_safe_witness :
    (∀ (p : ℕ) (sibs : List ℕ) (c : ℕ) (a : DayViewArgs),
      resolveParent p sibs c a ∈ p :: sibs) ∧
    (∀ (p c : ℕ) (a : DayViewArgs), a.events.length ≤ p → isChild p c a = false) ∧
    (∀ q ∈ 0 :: [1, 2],
      (∃ se : StyledEvent,
        entryAt (styleTopLevelGo (0 :: [1, 2]) 0 ([1, 2] : List ℕ).length exampleR
          ⟨exampleR.events, []⟩) q = some se) ∧
      entryAt (styleGroupsGo [[3]] 0 0 [1, 2] exampleR
          (styleTopLevelGo (0 :: [1, 2]) 0 ([1, 2] : List ℕ).length exampleR
            ⟨exampleR.events, []⟩)) q =
        entryAt (styleTopLevelGo (0 :: [1, 2]) 0 ([1, 2] : List ℕ).length exampleR
          ⟨exampleR.events, []⟩) q) :=
  C10_parent_read_safe exampleR ⟨exampleR.events, []⟩ 0 [1, 2] [[3]] (by decide)
    (by decide) (by decide)

/-- C1: the output array has exactly one entry per input event; entry `i`
holds the (annotated) event stored at position `i` of the sorted array,
whose dates are those of position `i` of the sorted input; and the sorted
array is a permutation of the input, so every input event appears exactly
once. -/
theorem C1_coverage (args : DayViewArgs) :
    (getStyledEvents args).length = args.events.length ∧
    (sort args.events).Perm args.events ∧
    (∀ i, i < (getStyledEvents args).length →
      ∃ se : StyledEvent,
        (getStyledEvents args)[i]? = some (some se) ∧
        (finalState args).events[i]? = some se.event ∧
        (sort args.events)[i]?.map projEv = some (projEv se.event)) := by
  obtain ⟨hlen, hsty, hproj, hfr, hent⟩ := finalState_inv args
  refine ⟨?_, List.perm_insertionSort eventLE args.events, ?_⟩
  · rw [getStyledEvents, hsty, sort_length]
  · intro i hi
    rw [getStyledEvents, hsty] at hi
    obtain ⟨se, w, x, hA, hB, hC⟩ := hent i hi
    refine ⟨se, ?_, hB, ?_⟩
    · unfold entryAt at hA
      rw [List.getD_eq_getElem?_getD] at hA
      rw [getStyledEvents]
      rcases hopt : (finalState args).styledEvents[i]? with _ | o
      · rw [List.getElem?_eq_none_iff, hsty] at hopt
        omega
      · rw [hopt] at hA
        exact congrArg some (show o = some se from hA)
    · have hpr := congrArg (fun l => l[i]?) hproj
      simp only [List.getElem?_map] at hpr
      rw [hB] at hpr
      exact hpr.symm

/-- Witness for C1 on Scenario B. -/
theorem C1_coverage_witness :
    ∃ se : StyledEvent,
      (getStyledEvents exampleB)[0]? = some (some se) ∧
      (finalState exampleB).events[0]? = some se.event ∧
      (sort exampleB.events)[0]?.map projEv = some (projEv se.event) :=
  (C1_coverage exampleB).2.2 0 (by decide)

/-! ### Determinism: styles depend only on the start/end dates -/

/-- The sorter's comparator transported to date pairs. -/
def pairCmp (p q : ℕ × ℕ) : ℤ :=
  if (p.1 : ℤ) = (q.1 : ℤ) then (q.2 : ℤ) - (p.2 : ℤ)
  else (p.1 : ℤ) - (q.1 : ℤ)

/-- Comparator order on date pairs. -/
def pairLE (p q : ℕ × ℕ) : Prop := pairCmp p q ≤ 0

instance : DecidableRel pairLE := fun a b =>
  decidable_of_iff (pairCmp a b ≤ 0) Iff.rfl

theorem map_projEv_sort (l : List Event) :
    (sort l).map projEv = (l.map projEv).insertionSort pairLE := by
  unfold sort
  exact List.map_insertionSort eventLE pairLE projEv l (fun a _ b _ => Iff.rfl)

theorem sorted_of_projEv_eq {l1 l2 : List Event}
    (he : l1.map projEv = l2.map projEv) (h : List.Sorted eventLE l1) :
    List.Sorted eventLE l2 := by
  have hlen := length_eq_of_projEv he
  rw [List.Sorted, List.pairwise_iff_getElem] at h ⊢
  intro i j hi hj hij
  have h1 := h i j (by omega) (by omega) hij
  have hpi : projEv (l1.get ⟨i, by omega⟩) = projEv (l2.get ⟨i, hi⟩) := by
    refine Option.some.inj ?_
    have hq := getElem?_projEv he i
    rw [List.getElem?_eq_getElem (l := l1) (by omega),
      List.getElem?_eq_getElem (l := l2) hi] at hq
    simpa using hq
  have hpj : projEv (l1.get ⟨j, by omega⟩) = projEv (l2.get ⟨j, hj⟩) := by
    refine Option.some.inj ?_
    have hq := getElem?_projEv he j
    rw [List.getElem?_eq_getElem (l := l1) (by omega),
      List.getElem?_eq_getElem (l := l2) hj] at hq
    simpa using hq
  have h2 : pairLE (projEv (l1.get ⟨i, by omega⟩)) (projEv (l1.get ⟨j, by omega⟩)) := h1
  rw [hpi, hpj] at h2
  exact h2

theorem projEv_getD {l1 l2 : List Event}
    (he : l1.map projEv = l2.map projEv) (i : ℕ) :
    projEv (l1.getD i default) = projEv (l2.getD i default) := by
  have h' := getElem?_projEv he i
  rw [List.getD_eq_getElem?_getD, List.getD_eq_getElem?_getD]
  rcases h1 : l1[i]? with _ | e1 <;> rcases h2 : l2[i]? with _ | e2 <;>
    rw [h1, h2] at h' <;> simp_all

theorem map_arraySet {α β : Type} (f : α → β) (xs : List (Option α)) (i : ℕ) (v : α) :
    (arraySet xs i v).map (Option.map f) =
      arraySet (xs.map (Option.map f)) i (f v) := by
  unfold arraySet
  simp only [List.length_map]
  split
  · rw [List.map_set]
    rfl
  · simp [List.map_append, List.map_replicate]

/-- The style-only view of the two arrays of a layout state: two states are
related when their events carry the same dates position by position and
their styled entries carry the same styles. -/
def StateRel (st1 st2 : LayoutState) : Prop :=
  st1.events.map projEv = st2.events.map projEv ∧
  st1.styledEvents.map (Option.map StyledEvent.style) =
    st2.styledEvents.map (Option.map StyledEvent.style)

theorem parentStyleAt_rel {st1 st2 : LayoutState}
    (h : st1.styledEvents.map (Option.map StyledEvent.style) =
      st2.styledEvents.map (Option.map StyledEvent.style)) (p : ℕ) :
    parentStyleAt st1 p = parentStyleAt st2 p := by
  unfold parentStyleAt
  rw [List.getD_eq_getElem?_getD, List.getD_eq_getElem?_getD]
  have h' := congrArg (fun l => l[p]?) h
  simp only [List.getElem?_map] at h'
  rcases h1 : st1.styledEvents[p]? with _ | o1 <;>
    rcases h2 : st2.styledEvents[p]? with _ | o2 <;>
    rw [h1, h2] at h' <;> simp only [Option.map_none', Option.map_some'] at h'
  all_goals try exact Option.noConfusion h'
  rcases o1 with _ | se1 <;> rcases o2 with _ | se2 <;> simp_all


/-- The styled entry written by one top-level styling step depends only on
the window parameters, the dates of the events, and the previously written
styles: the stored event object itself is projected away. -/
theorem styleTopLevelStep_styled_map {a1 a2 : DayViewArgs}
    (hm : a1.min = a2.min) (ht : a1.totalMin = a2.totalMin) (hs : a1.step = a2.step)
    {st1 st2 : LayoutState} (h : StateRel st1 st2) (eventIdx sIdx sibLen : ℕ) :
    (styleTopLevelStep eventIdx sIdx sibLen a1 st1).styledEvents.map
        (Option.map StyledEvent.style) =
      (styleTopLevelStep eventIdx sIdx sibLen a2 st2).styledEvents.map
        (Option.map StyledEvent.style) := by
  obtain ⟨he, hsty⟩ := h
  simp only [styleTopLevelStep]
  by_cases hc : sibLen ≠ 0
  · rw [if_pos hc, if_pos hc]
    have hy : getYStyles eventIdx
        { a1 with events := st1.events.set eventIdx ({ st1.events.getD eventIdx default with
            overlappingCount := some (sibLen + 1),
            groupStart := some (decide (sIdx = 0)),
            groupEnd := some (decide (sIdx = sibLen)) }) } =
        getYStyles eventIdx
        { a2 with events := st2.events.set eventIdx ({ st2.events.getD eventIdx default with
            overlappingCount := some (sibLen + 1),
            groupStart := some (decide (sIdx = 0)),
            groupEnd := some (decide (sIdx = sibLen)) }) } := by
      refine getYStyles_congr ?_ ?_ ?_ ?_ eventIdx
      · exact hm
      · exact ht
      · exact hs
      · show (st1.events.set eventIdx _).map projEv = (st2.events.set eventIdx _).map projEv
        rw [List.map_set, List.map_set, he]
        exact congrArg (fun v => (st2.events.map projEv).set eventIdx v)
          (projEv_getD he eventIdx)
    dsimp only
    rw [map_arraySet, map_arraySet, hsty, hy]
  · rw [if_neg hc, if_neg hc]
    have hy : getYStyles eventIdx { a1 with events := st1.events } =
        getYStyles eventIdx { a2 with events := st2.events } := by
      refine getYStyles_congr ?_ ?_ ?_ ?_ eventIdx
      · exact hm
      · exact ht
      · exact hs
      · exact he
    dsimp only
    rw [map_arraySet, map_arraySet, hsty, hy]

/-- One top-level styling step preserves the simulation relation. -/
theorem styleTopLevelStep_rel {a1 a2 : DayViewArgs}
    (hm : a1.min = a2.min) (ht : a1.totalMin = a2.totalMin) (hs : a1.step = a2.step)
    {st1 st2 : LayoutState} (h : StateRel st1 st2) (eventIdx sIdx sibLen : ℕ) :
    StateRel (styleTopLevelStep eventIdx sIdx sibLen a1 st1)
      (styleTopLevelStep eventIdx sIdx sibLen a2 st2) :=
  ⟨by rw [styleTopLevelStep_projEv, styleTopLevelStep_projEv, h.1],
   styleTopLevelStep_styled_map hm ht hs h eventIdx sIdx sibLen⟩

/-- The whole top-level styling pass preserves the simulation relation. -/
theorem styleTopLevelGo_rel (members : List ℕ) {a1 a2 : DayViewArgs}
    (hm : a1.min = a2.min) (ht : a1.totalMin = a2.totalMin) (hs : a1.step = a2.step) :
    ∀ (sIdx sibLen : ℕ) {st1 st2 : LayoutState}, StateRel st1 st2 →
      StateRel (styleTopLevelGo members sIdx sibLen a1 st1)
        (styleTopLevelGo members sIdx sibLen a2 st2) := by
  induction members with
  | nil =>
    intro sIdx sibLen st1 st2 h
    exact h
  | cons m rest ih =>
    intro sIdx sibLen st1 st2 h
    exact ih (sIdx + 1) sibLen (styleTopLevelStep_rel hm ht hs h m sIdx sibLen)

/-- The styled entry written by one child styling step depends only on the
window parameters, the event dates, and the previously written styles. -/
theorem styleChildStep_styled_map {a1 a2 : DayViewArgs}
    (hm : a1.min = a2.min) (ht : a1.totalMin = a2.totalMin) (hs : a1.step = a2.step)
    {st1 st2 : LayoutState} (h : StateRel st1 st2)
    (group : List ℕ) (eventIdx i groupIndex parentIdx : ℕ) :
    (styleChildStep group eventIdx i groupIndex parentIdx a1 st1).styledEvents.map
        (Option.map StyledEvent.style) =
      (styleChildStep group eventIdx i groupIndex parentIdx a2 st2).styledEvents.map
        (Option.map StyledEvent.style) := by
  obtain ⟨he, hsty⟩ := h
  have hps := parentStyleAt_rel hsty parentIdx
  simp only [styleChildStep]
  by_cases hc : isOnlyNestedElement group = true
  · rw [if_pos hc, if_pos hc]
    have hy : getYStyles eventIdx { a1 with events := st1.events } =
        getYStyles eventIdx { a2 with events := st2.events } := by
      refine getYStyles_congr ?_ ?_ ?_ ?_ eventIdx
      · exact hm
      · exact ht
      · exact hs
      · exact he
    dsimp only
    rw [map_arraySet, map_arraySet, hsty, hy]
  · rw [if_neg hc, if_neg hc]
    have hy : getYStyles eventIdx
        { a1 with events := st1.events.set eventIdx ({ st1.events.getD eventIdx default with
            overlappingCount := some group.length,
            groupNumber := some (groupIndex + 1),
            groupStart := some (decide (i = 0)),
            groupEnd := some (decide (i = group.length - 1)) }) } =
        getYStyles eventIdx
        { a2 with events := st2.events.set eventIdx ({ st2.events.getD eventIdx default with
            overlappingCount := some group.length,
            groupNumber := some (groupIndex + 1),
            groupStart := some (decide (i = 0)),
            groupEnd := some (decide (i = group.length - 1)) }) } := by
      refine getYStyles_congr ?_ ?_ ?_ ?_ eventIdx
      · exact hm
      · exact ht
      · exact hs
      · show (st1.events.set eventIdx _).map projEv = (st2.events.set eventIdx _).map projEv
        rw [List.map_set, List.map_set, he]
        exact congrArg (fun v => (st2.events.map projEv).set eventIdx v)
          (projEv_getD he eventIdx)
    dsimp only
    rw [map_arraySet, map_arraySet, hsty, hps, hy]

/-- One child styling step preserves the simulation relation. -/
theorem styleChildStep_rel {a1 a2 : DayViewArgs}
    (hm : a1.min = a2.min) (ht : a1.totalMin = a2.totalMin) (hs : a1.step = a2.step)
    {st1 st2 : LayoutState} (h : StateRel st1 st2)
    (group : List ℕ) (eventIdx i groupIndex parentIdx : ℕ) :
    StateRel (styleChildStep group eventIdx i groupIndex parentIdx a1 st1)
      (styleChildStep group eventIdx i groupIndex parentIdx a2 st2) :=
  ⟨by rw [styleChildStep_projEv, styleChildStep_projEv, h.1],
   styleChildStep_styled_map hm ht hs h group eventIdx i groupIndex parentIdx⟩

/-- Styling one whole child group preserves the simulation relation. -/
theorem styleChildGroupGo_rel (memrest : List ℕ) {a1 a2 : DayViewArgs}
    (hm : a1.min = a2.min) (ht : a1.totalMin = a2.totalMin) (hs : a1.step = a2.step) :
    ∀ (i0 : ℕ) (group : List ℕ) (groupIndex parentIdx : ℕ) {st1 st2 : LayoutState},
      StateRel st1 st2 →
      StateRel (styleChildGroupGo memrest i0 group groupIndex parentIdx a1 st1)
        (styleChildGroupGo memrest i0 group groupIndex parentIdx a2 st2) := by
  induction memrest with
  | nil =>
    intro i0 group groupIndex parentIdx st1 st2 h
    exact h
  | cons m rest ih =>
    intro i0 group groupIndex parentIdx st1 st2 h
    exact ih (i0 + 1) group groupIndex parentIdx
      (styleChildStep_rel hm ht hs h group m i0 groupIndex parentIdx)

/-- Styling all child groups of a cluster preserves the simulation
relation; the resolved parents agree because the reparenting walk only
inspects event dates. -/
theorem styleGroupsGo_rel (groups : List (List ℕ)) {a1 a2 : DayViewArgs}
    (hm : a1.min = a2.min) (ht : a1.totalMin = a2.totalMin) (hs : a1.step = a2.step) :
    ∀ (gIdx idx : ℕ) (siblings : List ℕ) {st1 st2 : LayoutState}, StateRel st1 st2 →
      StateRel (styleGroupsGo groups gIdx idx siblings a1 st1)
        (styleGroupsGo groups gIdx idx siblings a2 st2) := by
  induction groups with
  | nil =>
    intro gIdx idx siblings st1 st2 h
    exact h
  | cons g rest ih =>
    intro gIdx idx siblings st1 st2 h
    simp only [styleGroupsGo]
    have hpar : resolveParent idx siblings (g.headD 0) { a1 with events := st1.events } =
        resolveParent idx siblings (g.headD 0) { a2 with events := st2.events } := by
      refine resolveParent_congr ?_ ?_ ?_ idx siblings (g.headD 0)
      · exact hm
      · exact ht
      · exact h.1
    rw [hpar]
    exact ih (gIdx + 1) idx siblings
      (styleChildGroupGo_rel g hm ht hs 0 g gIdx _ h)

/-- The driver loop preserves the simulation relation: runs over two event
arrays with position-by-position equal dates stay in lockstep (same cluster
boundaries) and write equal styles. -/
theorem driveFrom_rel (fuel : ℕ) :
    ∀ {a1 a2 : DayViewArgs}, a1.min = a2.min → a1.totalMin = a2.totalMin →
      a1.step = a2.step → ∀ {st1 st2 : LayoutState}, StateRel st1 st2 → ∀ idx,
      StateRel (driveFrom fuel a1 st1 idx) (driveFrom fuel a2 st2 idx) := by
  induction fuel with
  | zero =>
    intro a1 a2 hm ht hs st1 st2 h idx
    exact h
  | succ fuel ih =>
    intro a1 a2 hm ht hs st1 st2 h idx
    have hlen : st1.events.length = st2.events.length := length_eq_of_projEv h.1
    have hsibs : getSiblings idx { a1 with events := st1.events } =
        getSiblings idx { a2 with events := st2.events } := by
      refine getSiblings_congr ?_ ?_ ?_ idx
      · exact hm
      · exact ht
      · exact h.1
    simp only [driveFrom]
    by_cases hidx : idx < st1.events.length
    · rw [if_pos hidx, if_pos (show idx < st2.events.length by omega)]
      rw [hsibs]
      have hgroups : (getChildGroups idx
            (idx + (getSiblings idx { a2 with events := st2.events }).length + 1)
            { a1 with events := st1.events }).1 =
          (getChildGroups idx
            (idx + (getSiblings idx { a2 with events := st2.events }).length + 1)
            { a2 with events := st2.events }).1 := by
        rw [getChildGroups_fst, getChildGroups_fst]
        rw [show ({ a1 with events := st1.events } : DayViewArgs).events.length =
          ({ a2 with events := st2.events } : DayViewArgs).events.length from hlen]
        refine childGroupsFrom_congr ?_ ?_ ?_ _ _ _
        · exact hm
        · exact ht
        · exact h.1
      rw [hgroups]
      exact ih hm ht hs
        (styleGroupsGo_rel _ hm ht hs 0 idx _
          (styleTopLevelGo_rel _ hm ht hs 0 _ h)) _
    · rw [if_neg hidx, if_neg (show ¬idx < st2.events.length by omega)]
      exact h

/-- Like `exampleB`, but with stale sibling metadata already written on the
events: the dates are unchanged. -/
def exampleBMeta : DayViewArgs :=
  ⟨[{ start := 540, stop := 600, overlappingCount := some 7, groupNumber := some 4,
      groupStart := some true, groupEnd := some false },
    { start := 540, stop := 660, groupNumber := some 2 }], 0, 1440, 30⟩

/-- C9: the styles produced by the pipeline are a pure, deterministic
function of the window parameters and the input events' start/end dates:
two configurations with the same `min`/`totalMin`/`step` whose events carry
identical dates position by position (in particular, deep-equal inputs, or
inputs that differ only in previously written bookkeeping metadata) produce
style-for-style identical output; and re-running the pipeline on the
(annotated, sorted) event array left behind by a first run reproduces the
first run's styles exactly. -/
theorem C9_determinism :
    (∀ args1 args2 : DayViewArgs, args1.min = args2.min →
      args1.totalMin = args2.totalMin → args1.step = args2.step →
      args1.events.map projEv = args2.events.map projEv →
      (getStyledEvents args1).map (Option.map StyledEvent.style) =
        (getStyledEvents args2).map (Option.map StyledEvent.style)) ∧
    (∀ args : DayViewArgs,
      (getStyledEvents { args with events := (finalState args).events }).map
          (Option.map StyledEvent.style) =
        (getStyledEvents args).map (Option.map StyledEvent.style)) := by
  have main : ∀ args1 args2 : DayViewArgs, args1.min = args2.min →
      args1.totalMin = args2.totalMin → args1.step = args2.step →
      args1.events.map projEv = args2.events.map projEv →
      (getStyledEvents args1).map (Option.map StyledEvent.style) =
        (getStyledEvents args2).map (Option.map StyledEvent.style) := by
    intro a1 a2 hm ht hs he
    have hsorted : (sort a1.events).map projEv = (sort a2.events).map projEv := by
      rw [map_projEv_sort, map_projEv_sort, he]
    have hlen : (sort a1.events).length = (sort a2.events).length :=
      length_eq_of_projEv hsorted
    simp only [getStyledEvents, finalState]
    rw [hlen]
    refine (driveFrom_rel (sort a2.events).length ?_ ?_ ?_ ?_ 0).2
    · exact hm
    · exact ht
    · exact hs
    · exact ⟨hsorted, rfl⟩
  refine ⟨main, ?_⟩
  intro args
  have hproj : (finalState args).events.map projEv =
      (sort args.events).map projEv := (finalState_inv args).2.2.1
  have hsortedF : List.Sorted eventLE (finalState args).events :=
    sorted_of_projEv_eq hproj.symm (List.sorted_insertionSort eventLE args.events)
  have hsortid : sort ((finalState args).events) = (finalState args).events :=
    hsortedF.insertionSort_eq
  have key : ∀ F : LayoutState, F.events.map projEv = (sort args.events).map projEv →
      sort F.events = F.events →
      (getStyledEvents { args with events := F.events }).map
          (Option.map StyledEvent.style) =
        (getStyledEvents args).map (Option.map StyledEvent.style) := by
    intro F hFp hFs
    simp only [getStyledEvents, finalState]
    rw [hFs, length_eq_of_projEv hFp]
    refine (driveFrom_rel (sort args.events).length ?_ ?_ ?_ ?_ 0).2
    · exact rfl
    · exact rfl
    · exact rfl
    · exact ⟨hFp, rfl⟩
  exact key (finalState args) hproj hsortid

/-- Witness for C9 at concrete inputs: `exampleB` against the same dates
carrying stale metadata (`exampleBMeta`), and idempotence of a re-run on
`exampleB`'s own output array. -/
theorem C9_determinism_witness :
    (getStyledEvents exampleB).map (Option.map StyledEvent.style) =
      (getStyledEvents exampleBMeta).map (Option.map StyledEvent.style) ∧
    (getStyledEvents { exampleB with events := (finalState exampleB).events }).map
        (Option.map StyledEvent.style) =
      (getStyledEvents exampleB).map (Option.map StyledEvent.style) :=
  ⟨C9_determinism.1 exampleB exampleBMeta rfl rfl rfl rfl,
   C9_determinism.2 exampleB⟩

end DayViewLayout
